import Mathlib

/-!
Shallow embedding of the mark-and-sweep garbage collector from
`mark_and_sweep.py` (classes `ObjectState`, `ManagedObject`, `MarkAndSweepGC`).

Modelling choices:
* Python `ManagedObject` instances are identified by their integer `id`
  (ids are process-unique, assigned from the class counter `_id_counter`,
  and `ManagedObject` uses identity equality/hash, so the id is a faithful
  object identity).  The heap is a partial map from ids to object data.
* Python sets (`all_objects`, `roots`) are modelled as duplicate-free lists:
  `set.add` inserts only when absent, `set.remove` erases the element.
* The recursive `mark` method is modelled with an explicit fuel parameter
  (`markFuel` / `markListFuel`); `mark_phase` runs it with fuel
  `counter + 1`, which strictly exceeds the number of objects that ever
  existed, hence (as proved below) the fuel never runs out and the result
  is fuel-independent.
-/

namespace MarkSweep

/-- `ObjectState` enum from the source: UNMARKED, MARKED, COLLECTED. -/
inductive ObjectState where
  | unmarked
  | marked
  | collected
deriving DecidableEq, Repr

/-- The per-object data of a `ManagedObject`: display name, ordered list of
outgoing references (by target id), and the mark state.  The opaque `data`
payload is never inspected by the collector and is omitted. -/
structure ObjData where
  name : String
  references : List Nat
  state : ObjectState
deriving DecidableEq, Repr

/-- The heap: a partial map from object ids to object data.  Every
`ManagedObject` ever created stays in the heap (Python objects survive as
long as the caller holds a handle); `all_objects` membership is tracked
separately in `GCState`. -/
def Heap : Type := Nat → Option ObjData

/-- Create / overwrite the heap entry at id `i`. -/
def Heap.set (h : Heap) (i : Nat) (o : ObjData) : Heap :=
  fun j => if j = i then some o else h j

/-- `obj.state = s` for the object with id `i` (no-op if `i` is not a live
heap id, which never happens along real executions). -/
def setStateH (h : Heap) (i : Nat) (s : ObjectState) : Heap :=
  fun j => if j = i then (h j).map (fun o => { o with state := s }) else h j

/-- The mark state of the object with id `i`, if it exists. -/
def stateOf (h : Heap) (i : Nat) : Option ObjectState :=
  (h i).map ObjData.state

/-- The reference list of the object with id `i` (empty if absent). -/
def refsOf (h : Heap) (i : Nat) : List Nat :=
  ((h i).map ObjData.references).getD []

/-- Python `set.add` on a duplicate-free list. -/
def insertSet (l : List Nat) (i : Nat) : List Nat :=
  if i ∈ l then l else l ++ [i]

/-- `ManagedObject.add_reference`: append `b` to the reference list of the
object `a` unless already present. -/
def add_reference (h : Heap) (a b : Nat) : Heap :=
  fun j =>
    if j = a then
      (h a).map (fun o =>
        if b ∈ o.references then o
        else { o with references := o.references ++ [b] })
    else h j

/-- `ManagedObject.remove_reference`: remove `b` from the reference list of
the object `a` if present. -/
def remove_reference (h : Heap) (a b : Nat) : Heap :=
  fun j =>
    if j = a then
      (h a).map (fun o =>
        if b ∈ o.references then { o with references := o.references.erase b }
        else o)
    else h j

/-- `MarkAndSweepGC.mark`: if the object is already marked, return; else mark
it and recursively mark every object in its reference list (the `for ref in
obj.references` loop is the fold over the reference list).  `fuel` bounds
the recursion depth; it is an artefact of the embedding (the source recursion
terminates, as proved by `markFuel_fuel_irrelevant`). -/
def markFuel : Nat → Heap → Nat → Heap
  | 0, h, _ => h
  | fuel + 1, h, i =>
    match h i with
    | none => h
    | some o =>
      if o.state = ObjectState.marked then h
      else o.references.foldl (fun h' r => markFuel fuel h' r)
        (setStateH h i ObjectState.marked)

/-- Sequentially `mark` every id in the list (the `for ref in obj.references`
loop, and also the `for root in self.roots` loop of `mark_phase`). -/
def markListFuel (fuel : Nat) (h : Heap) (l : List Nat) : Heap :=
  l.foldl (fun h' r => markFuel fuel h' r) h

theorem markFuel_zero (h : Heap) (i : Nat) : markFuel 0 h i = h := rfl

theorem markFuel_succ (fuel : Nat) (h : Heap) (i : Nat) :
    markFuel (fuel + 1) h i =
      match h i with
      | none => h
      | some o =>
        if o.state = ObjectState.marked then h
        else markListFuel fuel (setStateH h i ObjectState.marked) o.references := rfl

theorem markListFuel_nil (fuel : Nat) (h : Heap) : markListFuel fuel h [] = h := rfl

theorem markListFuel_cons (fuel : Nat) (h : Heap) (r : Nat) (rest : List Nat) :
    markListFuel fuel h (r :: rest) = markListFuel fuel (markFuel fuel h r) rest := rfl

/-- The per-cycle statistics dictionary returned by `collect`. -/
structure CycleStats where
  initial_objects : Nat
  marked_objects : Nat
  collected_objects : Nat
  final_objects : Nat
  roots : Nat
deriving DecidableEq, Repr

/-- The state of a `MarkAndSweepGC` instance, together with the
`ManagedObject._id_counter` class counter threaded through allocations. -/
structure GCState where
  counter : Nat
  heap : Heap
  all_objects : List Nat
  roots : List Nat
  collected_count : Nat
  collection_history : List CycleStats

/-- `ManagedObject.__init__`: increment the class counter and take it as the
new object's id.  Returns (new counter value, assigned id). -/
def managedObjectInit (counter : Nat) : Nat × Nat :=
  (counter + 1, counter + 1)

/-- `MarkAndSweepGC.allocate`: construct a new `ManagedObject` (fresh id,
empty reference list, `UNMARKED`) and insert it into `all_objects`.
Returns the new state and the id of the allocated object. -/
def allocate (s : GCState) (name : String) : GCState × Nat :=
  let c := managedObjectInit s.counter
  ({ s with
      counter := c.1,
      heap := s.heap.set c.2 ⟨name, [], ObjectState.unmarked⟩,
      all_objects := insertSet s.all_objects c.2 }, c.2)

/-- `MarkAndSweepGC.add_root`: insert into `roots` (unconditionally — the
object is not required to be in `all_objects`). -/
def add_root (s : GCState) (i : Nat) : GCState :=
  { s with roots := insertSet s.roots i }

/-- `MarkAndSweepGC.remove_root`: remove from `roots` if present. -/
def remove_root (s : GCState) (i : Nat) : GCState :=
  if i ∈ s.roots then { s with roots := s.roots.erase i } else s

/-- The reset loop of `mark_phase`: set every object in `all_objects` to
`UNMARKED`. -/
def resetStates (h : Heap) (l : List Nat) : Heap :=
  l.foldl (fun h i => setStateH h i ObjectState.unmarked) h

/-- `MarkAndSweepGC.mark_phase` with explicit fuel: reset all objects in
`all_objects` to `UNMARKED`, mark everything reachable from `roots`, and
count the members of `all_objects` now `MARKED`. -/
def markPhaseFuel (s : GCState) (fuel : Nat) : GCState × Nat :=
  let h1 := resetStates s.heap s.all_objects
  let h2 := markListFuel fuel h1 s.roots
  ({ s with heap := h2 },
   s.all_objects.countP (fun i => stateOf h2 i = some ObjectState.marked))

/-- `MarkAndSweepGC.mark_phase`.  The fuel `counter + 1` strictly exceeds the
number of objects ever created, so the recursion never exhausts it. -/
def mark_phase (s : GCState) : GCState × Nat :=
  markPhaseFuel s (s.counter + 1)

/-- `MarkAndSweepGC.sweep_phase`: collect every member of `all_objects` still
`UNMARKED` — set its state to `COLLECTED` and remove it from `all_objects` —
and add the number collected to `collected_count`.  (The Python loop iterates
a snapshot of the set and tests each distinct object's state before mutating
it, so the garbage is exactly the members unmarked in the pre-sweep heap.) -/
def sweep_phase (s : GCState) : GCState × Nat :=
  let garbage := s.all_objects.filter
    (fun i => stateOf s.heap i = some ObjectState.unmarked)
  ({ s with
      heap := garbage.foldl (fun h i => setStateH h i ObjectState.collected) s.heap,
      all_objects := s.all_objects.filter
        (fun i => ¬ (stateOf s.heap i = some ObjectState.unmarked)),
      collected_count := s.collected_count + garbage.length },
   garbage.length)

/-- `MarkAndSweepGC.collect`: a full cycle — snapshot the initial count, run
mark then sweep, build the statistics dictionary, append it to
`collection_history`, and return it. -/
def collect (s : GCState) : GCState × CycleStats :=
  let initial := s.all_objects.length
  let m := mark_phase s
  let w := sweep_phase m.1
  let stats : CycleStats :=
    ⟨initial, m.2, w.2, w.1.all_objects.length, w.1.roots.length⟩
  ({ w.1 with collection_history := w.1.collection_history ++ [stats] }, stats)

/-- The aggregate statistics returned by `get_stats`. -/
structure AggStats where
  total_objects : Nat
  root_objects : Nat
  total_collected : Nat
  collection_cycles : Nat
deriving DecidableEq, Repr

/-- `MarkAndSweepGC.get_stats`: a pure read of the current counters. -/
def get_stats (s : GCState) : AggStats :=
  ⟨s.all_objects.length, s.roots.length, s.collected_count,
   s.collection_history.length⟩

/-- The public operations of the collector, as invoked by external callers.
Object handles are identified by id. -/
inductive Op where
  | allocate (name : String)
  | addRef (a b : Nat)
  | removeRef (a b : Nat)
  | addRoot (i : Nat)
  | removeRoot (i : Nat)
  | collect
  | getStats
deriving DecidableEq, Repr

/-- Apply one public operation to the collector state. -/
def applyOp (s : GCState) : Op → GCState
  | .allocate n => (allocate s n).1
  | .addRef a b => { s with heap := add_reference s.heap a b }
  | .removeRef a b => { s with heap := remove_reference s.heap a b }
  | .addRoot i => add_root s i
  | .removeRoot i => remove_root s i
  | .collect => (collect s).1
  | .getStats => s

/-- Run a sequence of public operations. -/
def runOps (s : GCState) : List Op → GCState
  | [] => s
  | op :: rest => runOps (applyOp s op) rest

/-- A fresh collector: `MarkAndSweepGC.__init__` with the class id counter
at its initial value 0. -/
def init : GCState :=
  { counter := 0, heap := fun _ => none, all_objects := [], roots := [],
    collected_count := 0, collection_history := [] }

/-- An operation is legal when every object handle it mentions denotes an
object of this collector (Python callers can only pass handles obtained from
`allocate`). -/
def legalOpB (s : GCState) : Op → Bool
  | .allocate _ => true
  | .addRef a b => (s.heap a).isSome && (s.heap b).isSome
  | .removeRef a b => (s.heap a).isSome && (s.heap b).isSome
  | .addRoot i => (s.heap i).isSome
  | .removeRoot i => (s.heap i).isSome
  | .collect => true
  | .getStats => true

/-- Every operation in the sequence is legal in the state where it runs. -/
def legalOpsB : GCState → List Op → Bool
  | _, [] => true
  | s, op :: rest => legalOpB s op && legalOpsB (applyOp s op) rest

/-- A collector state reachable from a fresh collector through the public
operations. -/
def ReachableGC (s : GCState) : Prop :=
  ∃ ops : List Op, legalOpsB init ops = true ∧ runOps init ops = s

/-- Directed reference path (reflexive-transitive closure of the reference
edges of `h`); `RefPath h i j` holds when `j` is reachable from `i`,
including the zero-length path. -/
inductive RefPath (h : Heap) : Nat → Nat → Prop
  | refl (i : Nat) : RefPath h i i
  | tail {i j k : Nat} : RefPath h i j → k ∈ refsOf h j → RefPath h i k

/-- A reference path all of whose non-final nodes exist in the heap and are
not currently `MARKED` — exactly the paths the recursive `mark` is guaranteed
to traverse in full. -/
inductive MPath (h : Heap) : Nat → Nat → Prop
  | refl (i : Nat) : MPath h i i
  | tail {i j k : Nat} : MPath h i j → (h j).isSome →
      stateOf h j ≠ some ObjectState.marked → k ∈ refsOf h j → MPath h i k

/-! ### Basic heap lemmas -/

theorem Heap.set_apply (h : Heap) (i : Nat) (o : ObjData) (j : Nat) :
    (h.set i o) j = if j = i then some o else h j := rfl

theorem setStateH_apply (h : Heap) (i : Nat) (s : ObjectState) (j : Nat) :
    (setStateH h i s) j =
      if j = i then (h j).map (fun o => { o with state := s }) else h j := rfl

theorem setStateH_isSome (h : Heap) (i : Nat) (s : ObjectState) (j : Nat) :
    ((setStateH h i s) j).isSome = (h j).isSome := by
  rw [setStateH_apply]
  by_cases hj : j = i <;> simp [hj]

theorem setStateH_refsOf (h : Heap) (i : Nat) (s : ObjectState) (j : Nat) :
    refsOf (setStateH h i s) j = refsOf h j := by
  unfold refsOf
  rw [setStateH_apply]
  by_cases hj : j = i
  · subst hj; cases h j <;> simp
  · simp [hj]

theorem setStateH_stateOf_ne (h : Heap) (i : Nat) (s : ObjectState) (j : Nat)
    (hj : j ≠ i) : stateOf (setStateH h i s) j = stateOf h j := by
  unfold stateOf
  rw [setStateH_apply]
  simp [hj]

theorem setStateH_stateOf_self (h : Heap) (i : Nat) (s : ObjectState) (o : ObjData)
    (ho : h i = some o) : stateOf (setStateH h i s) i = some s := by
  unfold stateOf
  rw [setStateH_apply]
  simp [ho]

theorem markListFuel_zero : ∀ (l : List Nat) (h : Heap), markListFuel 0 h l = h := by
  intro l
  induction l with
  | nil => intro h; rw [markListFuel_nil]
  | cons r rest ih =>
    intro h
    rw [markListFuel_cons, markFuel_zero]
    exact ih h

/-- The way a single mark run can change the heap: each entry is either
untouched, or was an existing non-`MARKED` object whose state became
`MARKED`. -/
def HEvol (h h' : Heap) : Prop :=
  ∀ x, h' x = h x ∨
    ∃ o, h x = some o ∧ o.state ≠ ObjectState.marked ∧
      h' x = some { o with state := ObjectState.marked }

theorem hevol_refl (h : Heap) : HEvol h h := fun _ => Or.inl rfl

theorem hevol_trans {h1 h2 h3 : Heap} (a : HEvol h1 h2) (b : HEvol h2 h3) :
    HEvol h1 h3 := by
  intro x
  rcases b x with hb | ⟨o, ho, hno, ho'⟩
  · rw [hb]; exact a x
  · rcases a x with ha | ⟨p, hp, hnp, hp'⟩
    · rw [ha] at ho
      exact Or.inr ⟨o, ho, hno, ho'⟩
    · rw [hp'] at ho
      injection ho with ho
      rw [← ho] at hno
      simp at hno

theorem hevol_setState {h : Heap} {i : Nat} {o : ObjData}
    (ho : h i = some o) (hno : o.state ≠ ObjectState.marked) :
    HEvol h (setStateH h i ObjectState.marked) := by
  intro x
  rw [setStateH_apply]
  by_cases hx : x = i
  · subst hx
    exact Or.inr ⟨o, ho, hno, by simp [ho]⟩
  · simp [hx]

theorem markFuel_evol : ∀ (f : Nat) (h : Heap) (i : Nat), HEvol h (markFuel f h i) := by
  intro f
  induction f with
  | zero => intro h i; rw [markFuel_zero]; exact hevol_refl h
  | succ f ih =>
    have hlist : ∀ (l : List Nat) (h : Heap), HEvol h (markListFuel f h l) := by
      intro l
      induction l with
      | nil => intro h; rw [markListFuel_nil]; exact hevol_refl h
      | cons r rest ihl =>
        intro h
        rw [markListFuel_cons]
        exact hevol_trans (ih h r) (ihl (markFuel f h r))
    intro h i
    rw [markFuel_succ]
    cases ho : h i with
    | none => exact hevol_refl h
    | some o =>
      by_cases hm : o.state = ObjectState.marked
      · simp [hm]; exact hevol_refl h
      · simp [hm]
        exact hevol_trans (hevol_setState ho hm)
          (hlist o.references (setStateH h i ObjectState.marked))

theorem markListFuel_evol : ∀ (f : Nat) (l : List Nat) (h : Heap),
    HEvol h (markListFuel f h l) := by
  intro f l
  induction l with
  | nil => intro h; rw [markListFuel_nil]; exact hevol_refl h
  | cons r rest ihl =>
    intro h
    rw [markListFuel_cons]
    exact hevol_trans (markFuel_evol f h r) (ihl (markFuel f h r))

/-! Frame facts derived from `HEvol`: marking never creates or deletes heap
entries, never changes a reference list or a name, keeps `MARKED` objects
`MARKED`, and changes a state only by setting it to `MARKED`. -/

theorem hevol_isSome {h h' : Heap} (e : HEvol h h') (x : Nat) :
    (h' x).isSome = (h x).isSome := by
  rcases e x with he | ⟨o, ho, _, ho'⟩
  · rw [he]
  · rw [ho, ho']; rfl

theorem hevol_refsOf {h h' : Heap} (e : HEvol h h') (x : Nat) :
    refsOf h' x = refsOf h x := by
  unfold refsOf
  rcases e x with he | ⟨o, ho, _, ho'⟩
  · rw [he]
  · rw [ho, ho']; rfl

theorem hevol_marked_mono {h h' : Heap} (e : HEvol h h') (x : Nat)
    (hm : stateOf h x = some ObjectState.marked) :
    stateOf h' x = some ObjectState.marked := by
  unfold stateOf at *
  rcases e x with he | ⟨o, ho, hno, ho'⟩
  · rw [he]; exact hm
  · rw [ho] at hm
    simp at hm
    exact absurd hm hno

theorem hevol_state_cases {h h' : Heap} (e : HEvol h h') (x : Nat) :
    stateOf h' x = stateOf h x ∨
      (stateOf h x ≠ some ObjectState.marked ∧
        stateOf h' x = some ObjectState.marked ∧ (h x).isSome) := by
  unfold stateOf
  rcases e x with he | ⟨o, ho, hno, ho'⟩
  · exact Or.inl (by rw [he])
  · refine Or.inr ⟨?_, by rw [ho']; rfl, by rw [ho]; rfl⟩
    rw [ho]
    simp
    exact hno

theorem hevol_state_unchanged_of_ne_marked {h h' : Heap} (e : HEvol h h')
    (x : Nat) (hx : stateOf h' x ≠ some ObjectState.marked) :
    stateOf h' x = stateOf h x := by
  rcases hevol_state_cases e x with hc | ⟨_, hm, _⟩
  · exact hc
  · exact absurd hm hx

/-! ### Reference-path lemmas -/

theorem refPath_congr {h h' : Heap} (hr : ∀ y, refsOf h' y = refsOf h y)
    {i x : Nat} (p : RefPath h' i x) : RefPath h i x := by
  induction p with
  | refl => exact RefPath.refl _
  | tail _ hk ih => exact RefPath.tail ih ((hr _) ▸ hk)

theorem refPath_head {h : Heap} {i j x : Nat} (hj : j ∈ refsOf h i)
    (p : RefPath h j x) : RefPath h i x := by
  induction p with
  | refl => exact RefPath.tail (RefPath.refl i) hj
  | tail _ hk ih => exact RefPath.tail ih hk

/-! ### Soundness of marking: a newly `MARKED` object is reachable from the
start of the traversal. -/

theorem markFuel_sound : ∀ (f : Nat) (h : Heap) (i x : Nat),
    stateOf (markFuel f h i) x = some ObjectState.marked →
    stateOf h x = some ObjectState.marked ∨ RefPath h i x := by
  intro f
  induction f with
  | zero => intro h i x hm; rw [markFuel_zero] at hm; exact Or.inl hm
  | succ f ih =>
    have hlist : ∀ (l : List Nat) (h : Heap) (x : Nat),
        stateOf (markListFuel f h l) x = some ObjectState.marked →
        stateOf h x = some ObjectState.marked ∨ ∃ j ∈ l, RefPath h j x := by
      intro l
      induction l with
      | nil => intro h x hm; rw [markListFuel_nil] at hm; exact Or.inl hm
      | cons r rest ihl =>
        intro h x hm
        rw [markListFuel_cons] at hm
        rcases ihl (markFuel f h r) x hm with hm2 | ⟨j, hj, hp⟩
        · rcases ih h r x hm2 with hm1 | hp
          · exact Or.inl hm1
          · exact Or.inr ⟨r, List.mem_cons_self r rest, hp⟩
        · refine Or.inr ⟨j, List.mem_cons_of_mem r hj, ?_⟩
          exact refPath_congr (hevol_refsOf (markFuel_evol f h r)) hp
    intro h i x hm
    rw [markFuel_succ] at hm
    cases ho : h i with
    | none => rw [ho] at hm; exact Or.inl hm
    | some o =>
      rw [ho] at hm
      by_cases hmk : o.state = ObjectState.marked
      · simp [hmk] at hm; exact Or.inl hm
      · simp [hmk] at hm
        rcases hlist o.references (setStateH h i ObjectState.marked) x hm with
          hm2 | ⟨j, hj, hp⟩
        · by_cases hx : x = i
          · subst hx; exact Or.inr (RefPath.refl x)
          · rw [setStateH_stateOf_ne h i ObjectState.marked x hx] at hm2
            exact Or.inl hm2
        · refine Or.inr (refPath_head ?_
            (refPath_congr (fun y => setStateH_refsOf h i ObjectState.marked y) hp))
          unfold refsOf
          rw [ho]
          exact hj

theorem markListFuel_sound : ∀ (f : Nat) (l : List Nat) (h : Heap) (x : Nat),
    stateOf (markListFuel f h l) x = some ObjectState.marked →
    stateOf h x = some ObjectState.marked ∨ ∃ j ∈ l, RefPath h j x := by
  intro f l
  induction l with
  | nil => intro h x hm; rw [markListFuel_nil] at hm; exact Or.inl hm
  | cons r rest ihl =>
    intro h x hm
    rw [markListFuel_cons] at hm
    rcases ihl (markFuel f h r) x hm with hm2 | ⟨j, hj, hp⟩
    · rcases markFuel_sound f h r x hm2 with hm1 | hp
      · exact Or.inl hm1
      · exact Or.inr ⟨r, List.mem_cons_self r rest, hp⟩
    · refine Or.inr ⟨j, List.mem_cons_of_mem r hj, ?_⟩
      exact refPath_congr (hevol_refsOf (markFuel_evol f h r)) hp

/-! ### Marking marks its start points -/

theorem markFuel_marks_self (f : Nat) (h : Heap) (i : Nat) (hf : 1 ≤ f)
    (hi : (h i).isSome) : stateOf (markFuel f h i) i = some ObjectState.marked := by
  obtain ⟨f, rfl⟩ : ∃ g, f = g + 1 := ⟨f - 1, (Nat.succ_pred_eq_of_pos hf).symm⟩
  rw [markFuel_succ]
  cases ho : h i with
  | none => rw [ho] at hi; simp at hi
  | some o =>
    by_cases hm : o.state = ObjectState.marked
    · simp [hm]
      unfold stateOf
      rw [ho]
      simp [hm]
    · simp [hm]
      refine hevol_marked_mono (markListFuel_evol f o.references _) i ?_
      exact setStateH_stateOf_self h i ObjectState.marked o ho

theorem markListFuel_marks_mem (f : Nat) (l : List Nat) (hf : 1 ≤ f) :
    ∀ (h : Heap) (j : Nat), j ∈ l → (h j).isSome →
      stateOf (markListFuel f h l) j = some ObjectState.marked := by
  induction l with
  | nil => intro h j hj; simp at hj
  | cons r rest ihl =>
    intro h j hj hjs
    rw [markListFuel_cons]
    rcases List.mem_cons.mp hj with hjr | hjm
    · subst hjr
      exact hevol_marked_mono (markListFuel_evol f rest _) j
        (markFuel_marks_self f h j hf hjs)
    · refine ihl (markFuel f h r) j hjm ?_
      rw [hevol_isSome (markFuel_evol f h r) j]
      exact hjs

/-! ### Counting unmarked heap entries (the termination measure of `mark`) -/

/-- `true` when id `i` denotes an existing object whose state is not
`MARKED` — the objects the recursive `mark` can still do work on. -/
def unmarkedEntry (h : Heap) (i : Nat) : Bool :=
  match h i with
  | some o => decide (¬ (o.state = ObjectState.marked))
  | none => false

/-- Number of ids in `L` denoting existing, not-yet-`MARKED` objects. -/
def ucOn (L : List Nat) (h : Heap) : Nat :=
  L.countP (unmarkedEntry h)

/-- `L` lists (at least) every existing object id. -/
def Covers (L : List Nat) (h : Heap) : Prop :=
  ∀ j, (h j).isSome → j ∈ L

theorem hevol_unmarkedEntry {h h' : Heap} (e : HEvol h h') (i : Nat)
    (hu : unmarkedEntry h' i = true) : unmarkedEntry h i = true := by
  unfold unmarkedEntry at *
  rcases e i with he | ⟨o, ho, hno, ho'⟩
  · rw [← he]; exact hu
  · rw [ho'] at hu
    simp at hu

theorem hevol_covers {h h' : Heap} (e : HEvol h h') {L : List Nat}
    (hc : Covers L h) : Covers L h' := by
  intro j hj
  rw [hevol_isSome e j] at hj
  exact hc j hj

theorem hevol_ucOn_le {h h' : Heap} (e : HEvol h h') (L : List Nat) :
    ucOn L h' ≤ ucOn L h :=
  List.countP_mono_left (fun i _ hi => hevol_unmarkedEntry e i hi)

theorem ucOn_le_length (L : List Nat) (h : Heap) : ucOn L h ≤ L.length :=
  List.countP_le_length (unmarkedEntry h)

theorem ucOn_setState_marked_lt (L : List Nat) (h : Heap) (i : Nat) (o : ObjData)
    (hiL : i ∈ L) (ho : h i = some o) (hno : o.state ≠ ObjectState.marked) :
    ucOn L (setStateH h i ObjectState.marked) < ucOn L h := by
  have hstep : HEvol h (setStateH h i ObjectState.marked) := hevol_setState ho hno
  have hfalse : unmarkedEntry (setStateH h i ObjectState.marked) i = false := by
    unfold unmarkedEntry
    rw [setStateH_apply]
    simp [ho]
  have htrue : unmarkedEntry h i = true := by
    unfold unmarkedEntry
    rw [ho]
    simp [hno]
  clear ho hno
  induction L with
  | nil => simp at hiL
  | cons a rest ih =>
    unfold ucOn at *
    rcases List.mem_cons.mp hiL with hia | him
    · subst hia
      rw [List.countP_cons, List.countP_cons, hfalse, htrue]
      simp
      exact Nat.lt_succ_of_le
        (List.countP_mono_left (fun j _ hj => hevol_unmarkedEntry hstep j hj))
    · rw [List.countP_cons, List.countP_cons]
      have hhead : (if unmarkedEntry (setStateH h i ObjectState.marked) a then 1 else 0)
          ≤ (if unmarkedEntry h a then 1 else 0) := by
        by_cases ha : unmarkedEntry (setStateH h i ObjectState.marked) a
        · rw [if_pos ha, if_pos (hevol_unmarkedEntry hstep a ha)]
        · simp [ha]
      exact Nat.add_lt_add_of_lt_of_le (ih him) hhead

theorem ucOn_pos (L : List Nat) (h : Heap) (i : Nat) (o : ObjData)
    (hiL : i ∈ L) (ho : h i = some o) (hno : o.state ≠ ObjectState.marked) :
    1 ≤ ucOn L h := by
  rw [ucOn, List.one_le_countP_iff]
  refine ⟨i, hiL, ?_⟩
  unfold unmarkedEntry
  rw [ho]
  simp [hno]

/-! ### Completeness of marking

With enough fuel (strictly more than the number of existing non-`MARKED`
objects), every object newly marked by a run has all its existing referenced
objects marked as well ("new marks are closed"); from this, everything on a
traversable path from a start point ends up `MARKED`. -/

theorem markFuel_nmc (L : List Nat) :
    ∀ (u f : Nat) (h : Heap) (i : Nat), Covers L h → ucOn L h < f → ucOn L h ≤ u →
    ∀ x y, stateOf h x ≠ some ObjectState.marked →
      stateOf (markFuel f h i) x = some ObjectState.marked →
      y ∈ refsOf h x → (h y).isSome →
      stateOf (markFuel f h i) y = some ObjectState.marked := by
  intro u
  induction u with
  | zero =>
    intro f h i hcov hflt hule x y hxnm hx hy hys
    obtain ⟨f', rfl⟩ : ∃ g, f = g + 1 :=
      ⟨f - 1, (Nat.succ_pred_eq_of_pos (Nat.lt_of_le_of_lt (Nat.zero_le _) hflt)).symm⟩
    cases ho : h i with
    | none =>
      have hr : markFuel (f' + 1) h i = h := by rw [markFuel_succ, ho]
      rw [hr] at hx
      exact absurd hx hxnm
    | some o =>
      by_cases hm : o.state = ObjectState.marked
      · have hr : markFuel (f' + 1) h i = h := by rw [markFuel_succ, ho]; simp [hm]
        rw [hr] at hx
        exact absurd hx hxnm
      · have h1 : 1 ≤ ucOn L h :=
          ucOn_pos L h i o (hcov i (by rw [ho]; rfl)) ho hm
        omega
  | succ u ih =>
    have hlist : ∀ (l : List Nat) (f : Nat) (h : Heap), Covers L h →
        ucOn L h < f → ucOn L h ≤ u →
        ∀ x y, stateOf h x ≠ some ObjectState.marked →
          stateOf (markListFuel f h l) x = some ObjectState.marked →
          y ∈ refsOf h x → (h y).isSome →
          stateOf (markListFuel f h l) y = some ObjectState.marked := by
      intro l
      induction l with
      | nil =>
        intro f h _ _ _ x y hxnm hx _ _
        rw [markListFuel_nil] at hx
        exact absurd hx hxnm
      | cons r rest ihl =>
        intro f h hcov hflt hule x y hxnm hx hy hys
        rw [markListFuel_cons] at hx ⊢
        have he2 : HEvol h (markFuel f h r) := markFuel_evol f h r
        by_cases hx2 : stateOf (markFuel f h r) x = some ObjectState.marked
        · exact hevol_marked_mono (markListFuel_evol f rest (markFuel f h r)) y
            (ih f h r hcov hflt hule x y hxnm hx2 hy hys)
        · refine ihl f (markFuel f h r) (hevol_covers he2 hcov)
            (Nat.lt_of_le_of_lt (hevol_ucOn_le he2 L) hflt)
            (Nat.le_trans (hevol_ucOn_le he2 L) hule)
            x y hx2 hx ?_ ?_
          · rw [hevol_refsOf he2 x]; exact hy
          · rw [hevol_isSome he2 y]; exact hys
    intro f h i hcov hflt hule x y hxnm hx hy hys
    obtain ⟨f', rfl⟩ : ∃ g, f = g + 1 :=
      ⟨f - 1, (Nat.succ_pred_eq_of_pos (Nat.lt_of_le_of_lt (Nat.zero_le _) hflt)).symm⟩
    cases ho : h i with
    | none =>
      have hr : markFuel (f' + 1) h i = h := by rw [markFuel_succ, ho]
      rw [hr] at hx
      exact absurd hx hxnm
    | some o =>
      by_cases hm : o.state = ObjectState.marked
      · have hr : markFuel (f' + 1) h i = h := by rw [markFuel_succ, ho]; simp [hm]
        rw [hr] at hx
        exact absurd hx hxnm
      · have hr : markFuel (f' + 1) h i =
            markListFuel f' (setStateH h i ObjectState.marked) o.references := by
          rw [markFuel_succ, ho]; simp [hm]
        have hiL : i ∈ L := hcov i (by rw [ho]; rfl)
        have hlt : ucOn L (setStateH h i ObjectState.marked) < ucOn L h :=
          ucOn_setState_marked_lt L h i o hiL ho hm
        have hstep : HEvol h (setStateH h i ObjectState.marked) := hevol_setState ho hm
        rw [hr] at hx ⊢
        by_cases hxi : x = i
        · subst hxi
          have hyrefs : y ∈ o.references := by
            unfold refsOf at hy
            rw [ho] at hy
            exact hy
          refine markListFuel_marks_mem f' o.references (by omega) _ y hyrefs ?_
          rw [setStateH_isSome]
          exact hys
        · refine hlist o.references f' (setStateH h i ObjectState.marked)
            (hevol_covers hstep hcov) (by omega) (by omega) x y ?_ hx ?_ ?_
          · rw [setStateH_stateOf_ne h i ObjectState.marked x hxi]
            exact hxnm
          · rw [setStateH_refsOf]
            exact hy
          · rw [setStateH_isSome]
            exact hys

theorem markListFuel_nmc (L : List Nat) (f : Nat) (l : List Nat) :
    ∀ (h : Heap), Covers L h → ucOn L h < f →
    ∀ x y, stateOf h x ≠ some ObjectState.marked →
      stateOf (markListFuel f h l) x = some ObjectState.marked →
      y ∈ refsOf h x → (h y).isSome →
      stateOf (markListFuel f h l) y = some ObjectState.marked := by
  induction l with
  | nil =>
    intro h _ _ x y hxnm hx _ _
    rw [markListFuel_nil] at hx
    exact absurd hx hxnm
  | cons r rest ihl =>
    intro h hcov hflt x y hxnm hx hy hys
    rw [markListFuel_cons] at hx ⊢
    have he2 : HEvol h (markFuel f h r) := markFuel_evol f h r
    by_cases hx2 : stateOf (markFuel f h r) x = some ObjectState.marked
    · exact hevol_marked_mono (markListFuel_evol f rest (markFuel f h r)) y
        (markFuel_nmc L (ucOn L h) f h r hcov hflt (Nat.le_refl _)
          x y hxnm hx2 hy hys)
    · refine ihl (markFuel f h r) (hevol_covers he2 hcov)
        (Nat.lt_of_le_of_lt (hevol_ucOn_le he2 L) hflt) x y hx2 hx ?_ ?_
      · rw [hevol_refsOf he2 x]; exact hy
      · rw [hevol_isSome he2 y]; exact hys

theorem markListFuel_complete (L : List Nat) (f : Nat) (h : Heap) (l : List Nat)
    (hcov : Covers L h) (hflt : ucOn L h < f) (r x : Nat) (hr : r ∈ l)
    (hp : MPath h r x) (hxs : (h x).isSome) :
    stateOf (markListFuel f h l) x = some ObjectState.marked := by
  induction hp with
  | refl => exact markListFuel_marks_mem f l (by omega) h r hr hxs
  | tail p hjdom hjnm hk ih =>
    exact markListFuel_nmc L f l h hcov hflt _ _ hjnm (ih hjdom) hk hxs

/-! ### Fuel irrelevance: the recursion of `mark` terminates

Any two fuel values strictly exceeding the number of existing non-`MARKED`
objects give the same result, so the fuel parameter is an artefact of the
embedding and the source recursion (bounded by the already-marked check)
terminates on every finite heap, cycles and self-loops included. -/

theorem markFuel_fuel_irrelevant (L : List Nat) :
    ∀ (u f1 f2 : Nat) (h : Heap) (i : Nat), Covers L h → ucOn L h ≤ u →
      ucOn L h < f1 → ucOn L h < f2 →
      markFuel f1 h i = markFuel f2 h i := by
  intro u
  induction u with
  | zero =>
    intro f1 f2 h i hcov hule hf1 hf2
    obtain ⟨g1, rfl⟩ : ∃ g, f1 = g + 1 :=
      ⟨f1 - 1, (Nat.succ_pred_eq_of_pos (Nat.lt_of_le_of_lt (Nat.zero_le _) hf1)).symm⟩
    obtain ⟨g2, rfl⟩ : ∃ g, f2 = g + 1 :=
      ⟨f2 - 1, (Nat.succ_pred_eq_of_pos (Nat.lt_of_le_of_lt (Nat.zero_le _) hf2)).symm⟩
    cases ho : h i with
    | none => rw [markFuel_succ, ho, markFuel_succ, ho]
    | some o =>
      by_cases hm : o.state = ObjectState.marked
      · rw [markFuel_succ, ho, markFuel_succ, ho]; simp [hm]
      · have h1 : 1 ≤ ucOn L h :=
          ucOn_pos L h i o (hcov i (by rw [ho]; rfl)) ho hm
        omega
  | succ u ih =>
    have hlist : ∀ (l : List Nat) (f1 f2 : Nat) (h : Heap), Covers L h →
        ucOn L h ≤ u → ucOn L h < f1 → ucOn L h < f2 →
        markListFuel f1 h l = markListFuel f2 h l := by
      intro l
      induction l with
      | nil => intro f1 f2 h _ _ _ _; rw [markListFuel_nil, markListFuel_nil]
      | cons r rest ihl =>
        intro f1 f2 h hcov hule hf1 hf2
        rw [markListFuel_cons, markListFuel_cons]
        rw [ih f1 f2 h r hcov hule hf1 hf2]
        have he2 : HEvol h (markFuel f2 h r) := markFuel_evol f2 h r
        exact ihl f1 f2 (markFuel f2 h r) (hevol_covers he2 hcov)
          (Nat.le_trans (hevol_ucOn_le he2 L) hule)
          (Nat.lt_of_le_of_lt (hevol_ucOn_le he2 L) hf1)
          (Nat.lt_of_le_of_lt (hevol_ucOn_le he2 L) hf2)
    intro f1 f2 h i hcov hule hf1 hf2
    obtain ⟨g1, rfl⟩ : ∃ g, f1 = g + 1 :=
      ⟨f1 - 1, (Nat.succ_pred_eq_of_pos (Nat.lt_of_le_of_lt (Nat.zero_le _) hf1)).symm⟩
    obtain ⟨g2, rfl⟩ : ∃ g, f2 = g + 1 :=
      ⟨f2 - 1, (Nat.succ_pred_eq_of_pos (Nat.lt_of_le_of_lt (Nat.zero_le _) hf2)).symm⟩
    cases ho : h i with
    | none => rw [markFuel_succ, ho, markFuel_succ, ho]
    | some o =>
      by_cases hm : o.state = ObjectState.marked
      · rw [markFuel_succ, ho, markFuel_succ, ho]; simp [hm]
      · rw [markFuel_succ, ho, markFuel_succ, ho]
        simp only [hm, if_false]
        have hiL : i ∈ L := hcov i (by rw [ho]; rfl)
        have hlt : ucOn L (setStateH h i ObjectState.marked) < ucOn L h :=
          ucOn_setState_marked_lt L h i o hiL ho hm
        have hstep : HEvol h (setStateH h i ObjectState.marked) := hevol_setState ho hm
        exact hlist o.references g1 g2 (setStateH h i ObjectState.marked)
          (hevol_covers hstep hcov) (by omega) (by omega) (by omega)

theorem markListFuel_fuel_irrelevant (L : List Nat) (l : List Nat)
    (f1 f2 : Nat) (h : Heap) (hcov : Covers L h)
    (hf1 : ucOn L h < f1) (hf2 : ucOn L h < f2) :
    markListFuel f1 h l = markListFuel f2 h l := by
  induction l generalizing h with
  | nil => rw [markListFuel_nil, markListFuel_nil]
  | cons r rest ihl =>
    rw [markListFuel_cons, markListFuel_cons]
    rw [markFuel_fuel_irrelevant L (ucOn L h) f1 f2 h r hcov (Nat.le_refl _) hf1 hf2]
    have he2 : HEvol h (markFuel f2 h r) := markFuel_evol f2 h r
    exact ihl (markFuel f2 h r) (hevol_covers he2 hcov)
      (Nat.lt_of_le_of_lt (hevol_ucOn_le he2 L) hf1)
      (Nat.lt_of_le_of_lt (hevol_ucOn_le he2 L) hf2)

/-! ### State-setting loops (mark-phase reset, sweep-phase tombstoning) -/

theorem foldl_setStateH_not_mem (s : ObjectState) :
    ∀ (l : List Nat) (h : Heap) (x : Nat), x ∉ l →
      (l.foldl (fun h i => setStateH h i s) h) x = h x := by
  intro l
  induction l with
  | nil => intro h x _; rfl
  | cons a rest ih =>
    intro h x hx
    rw [List.foldl_cons]
    rw [ih (setStateH h a s) x (fun hm => hx (List.mem_cons_of_mem a hm))]
    rw [setStateH_apply]
    refine if_neg (fun he => hx ?_)
    rw [he]
    exact List.mem_cons_self a rest

theorem foldl_setStateH_mem (s : ObjectState) :
    ∀ (l : List Nat) (h : Heap) (x : Nat), x ∈ l →
      (l.foldl (fun h i => setStateH h i s) h) x =
        (h x).map (fun o => { o with state := s }) := by
  intro l
  induction l with
  | nil => intro h x hx; simp at hx
  | cons a rest ih =>
    intro h x hx
    rw [List.foldl_cons]
    by_cases hxr : x ∈ rest
    · rw [ih (setStateH h a s) x hxr, setStateH_apply]
      by_cases hxa : x = a
      · subst hxa
        simp
        cases h x <;> simp
      · rw [if_neg hxa]
    · have hxa : x = a := by
        rcases List.mem_cons.mp hx with he | hm
        · exact he
        · exact absurd hm hxr
      subst hxa
      rw [foldl_setStateH_not_mem s rest (setStateH h x s) x hxr, setStateH_apply]
      simp

theorem foldl_setStateH_isSome (s : ObjectState) (l : List Nat) (h : Heap) (x : Nat) :
    ((l.foldl (fun h i => setStateH h i s) h) x).isSome = (h x).isSome := by
  by_cases hx : x ∈ l
  · rw [foldl_setStateH_mem s l h x hx]
    cases h x <;> simp
  · rw [foldl_setStateH_not_mem s l h x hx]

theorem foldl_setStateH_refsOf (s : ObjectState) (l : List Nat) (h : Heap) (x : Nat) :
    refsOf (l.foldl (fun h i => setStateH h i s) h) x = refsOf h x := by
  unfold refsOf
  by_cases hx : x ∈ l
  · rw [foldl_setStateH_mem s l h x hx]
    cases h x <;> simp
  · rw [foldl_setStateH_not_mem s l h x hx]

theorem resetStates_stateOf_mem (l : List Nat) (h : Heap) (x : Nat) (hx : x ∈ l)
    (hs : (h x).isSome) :
    stateOf (resetStates h l) x = some ObjectState.unmarked := by
  unfold resetStates stateOf
  rw [foldl_setStateH_mem ObjectState.unmarked l h x hx]
  cases ho : h x with
  | none => rw [ho] at hs; simp at hs
  | some o => simp

theorem resetStates_stateOf_not_mem (l : List Nat) (h : Heap) (x : Nat) (hx : x ∉ l) :
    stateOf (resetStates h l) x = stateOf h x := by
  unfold resetStates stateOf
  rw [foldl_setStateH_not_mem ObjectState.unmarked l h x hx]

theorem resetStates_isSome (l : List Nat) (h : Heap) (x : Nat) :
    ((resetStates h l) x).isSome = (h x).isSome :=
  foldl_setStateH_isSome ObjectState.unmarked l h x

theorem resetStates_refsOf (l : List Nat) (h : Heap) (x : Nat) :
    refsOf (resetStates h l) x = refsOf h x :=
  foldl_setStateH_refsOf ObjectState.unmarked l h x

theorem mem_range_one (c m : Nat) : m ∈ List.range' 1 c ↔ 1 ≤ m ∧ m ≤ c := by
  rw [List.mem_range']
  constructor
  · rintro ⟨i, hi, rfl⟩; omega
  · intro ⟨h1, h2⟩; exact ⟨m - 1, by omega, by omega⟩

/-! ### Collector-state invariant predicates -/

/-- Every member of `all_objects` denotes an existing heap object. -/
def MembersExist (s : GCState) : Prop := ∀ i ∈ s.all_objects, (s.heap i).isSome

/-- Every existing object id lies in `1..counter` (ids come from the
allocation counter). -/
def IdsBounded (s : GCState) : Prop :=
  ∀ i, (s.heap i).isSome → 1 ≤ i ∧ i ≤ s.counter

/-- Every root is a member of `all_objects`. -/
def RootsLive (s : GCState) : Prop := ∀ r ∈ s.roots, r ∈ s.all_objects

/-- Members only reference members (no collected object is referenced by a
live one). -/
def RefsClosed (s : GCState) : Prop :=
  ∀ i ∈ s.all_objects, ∀ j ∈ refsOf s.heap i, j ∈ s.all_objects

/-! ### Characterisation of `mark_phase` -/

theorem markPhaseFuel_eq (s : GCState) (f : Nat) :
    markPhaseFuel s f =
      ({ s with heap := markListFuel f (resetStates s.heap s.all_objects) s.roots },
       s.all_objects.countP (fun i =>
         stateOf (markListFuel f (resetStates s.heap s.all_objects) s.roots) i
           = some ObjectState.marked)) := rfl

theorem mark_phase_fields (s : GCState) :
    (mark_phase s).1.counter = s.counter ∧
    (mark_phase s).1.all_objects = s.all_objects ∧
    (mark_phase s).1.roots = s.roots ∧
    (mark_phase s).1.collected_count = s.collected_count ∧
    (mark_phase s).1.collection_history = s.collection_history :=
  ⟨rfl, rfl, rfl, rfl, rfl⟩

theorem mark_phase_heap_isSome (s : GCState) (x : Nat) :
    (((mark_phase s).1.heap) x).isSome = (s.heap x).isSome := by
  show ((markListFuel (s.counter + 1) (resetStates s.heap s.all_objects) s.roots) x).isSome
    = (s.heap x).isSome
  rw [hevol_isSome (markListFuel_evol (s.counter + 1) s.roots
    (resetStates s.heap s.all_objects)) x]
  exact resetStates_isSome s.all_objects s.heap x

theorem mark_phase_refsOf (s : GCState) (x : Nat) :
    refsOf ((mark_phase s).1.heap) x = refsOf s.heap x := by
  show refsOf (markListFuel (s.counter + 1) (resetStates s.heap s.all_objects) s.roots) x
    = refsOf s.heap x
  rw [hevol_refsOf (markListFuel_evol (s.counter + 1) s.roots
    (resetStates s.heap s.all_objects)) x]
  exact resetStates_refsOf s.all_objects s.heap x

theorem mark_phase_member_states (s : GCState) (hmem : MembersExist s) :
    ∀ x ∈ s.all_objects,
      stateOf ((mark_phase s).1.heap) x = some ObjectState.marked ∨
      stateOf ((mark_phase s).1.heap) x = some ObjectState.unmarked := by
  intro x hx
  have h1u : stateOf (resetStates s.heap s.all_objects) x = some ObjectState.unmarked :=
    resetStates_stateOf_mem s.all_objects s.heap x hx (hmem x hx)
  have he : HEvol (resetStates s.heap s.all_objects) ((mark_phase s).1.heap) :=
    markListFuel_evol (s.counter + 1) s.roots _
  rcases hevol_state_cases he x with hc | ⟨_, hm, _⟩
  · exact Or.inr (by rw [hc]; exact h1u)
  · exact Or.inl hm

/-- Walking a reference path that starts at a member stays among the members
(when members only reference members), and after the reset every node on it
is an existing unmarked object: the path is fully traversable by `mark`. -/
theorem mpath_of_refPath_members (s : GCState) (hmem : MembersExist s)
    (hc : RefsClosed s) {r x : Nat} (hrm : r ∈ s.all_objects)
    (p : RefPath s.heap r x) :
    MPath (resetStates s.heap s.all_objects) r x ∧ x ∈ s.all_objects := by
  induction p with
  | refl => exact ⟨MPath.refl r, hrm⟩
  | tail q hk ih =>
    obtain ⟨mp, hjm⟩ := ih
    refine ⟨MPath.tail mp ?_ ?_ ?_, hc _ hjm _ hk⟩
    · rw [resetStates_isSome]
      exact hmem _ hjm
    · rw [resetStates_stateOf_mem s.all_objects s.heap _ hjm (hmem _ hjm)]
      simp
    · rw [resetStates_refsOf]
      exact hk

theorem mark_phase_marked_iff (s : GCState) (hmem : MembersExist s)
    (hb : IdsBounded s) (hr : RootsLive s) (hc : RefsClosed s) :
    ∀ x ∈ s.all_objects,
      (stateOf ((mark_phase s).1.heap) x = some ObjectState.marked ↔
        ∃ r ∈ s.roots, RefPath s.heap r x) := by
  intro x hx
  have hrefs1 : ∀ y, refsOf (resetStates s.heap s.all_objects) y = refsOf s.heap y :=
    fun y => resetStates_refsOf s.all_objects s.heap y
  constructor
  · intro hm
    rcases markListFuel_sound (s.counter + 1) s.roots
        (resetStates s.heap s.all_objects) x hm with h1m | ⟨r, hrr, hp⟩
    · rw [resetStates_stateOf_mem s.all_objects s.heap x hx (hmem x hx)] at h1m
      simp at h1m
    · exact ⟨r, hrr, refPath_congr hrefs1 hp⟩
  · rintro ⟨r, hrr, hp⟩
    obtain ⟨mp, _⟩ := mpath_of_refPath_members s hmem hc (hr r hrr) hp
    refine markListFuel_complete (List.range' 1 s.counter) (s.counter + 1)
      (resetStates s.heap s.all_objects) s.roots ?_ ?_ r x hrr mp ?_
    · intro j hj
      rw [resetStates_isSome] at hj
      rw [mem_range_one]
      exact hb j hj
    · have := ucOn_le_length (List.range' 1 s.counter) (resetStates s.heap s.all_objects)
      simp at this
      omega
    · rw [resetStates_isSome]
      exact hmem x hx

/-! ### Characterisation of `collect` -/

theorem collect_counter (s : GCState) : (collect s).1.counter = s.counter := rfl

theorem collect_roots (s : GCState) : (collect s).1.roots = s.roots := rfl

theorem collect_all_objects (s : GCState) :
    (collect s).1.all_objects = s.all_objects.filter
      (fun i => ¬ (stateOf ((mark_phase s).1.heap) i = some ObjectState.unmarked)) := rfl

theorem collect_history (s : GCState) :
    (collect s).1.collection_history = s.collection_history ++ [(collect s).2] := rfl

theorem collect_collected_count (s : GCState) :
    (collect s).1.collected_count =
      s.collected_count + (collect s).2.collected_objects := rfl

theorem collect_stats_def (s : GCState) :
    (collect s).2 =
      ⟨s.all_objects.length, (mark_phase s).2,
       (s.all_objects.filter
         (fun i => stateOf ((mark_phase s).1.heap) i = some ObjectState.unmarked)).length,
       (collect s).1.all_objects.length, s.roots.length⟩ := rfl

theorem mark_phase_count (s : GCState) :
    (mark_phase s).2 = s.all_objects.countP
      (fun i => stateOf ((mark_phase s).1.heap) i = some ObjectState.marked) := rfl

theorem collect_heap_isSome (s : GCState) (x : Nat) :
    (((collect s).1.heap) x).isSome = (s.heap x).isSome := by
  show ((List.foldl (fun h i => setStateH h i ObjectState.collected) _ _) x).isSome
    = (s.heap x).isSome
  rw [foldl_setStateH_isSome]
  exact mark_phase_heap_isSome s x

theorem collect_refsOf (s : GCState) (x : Nat) :
    refsOf ((collect s).1.heap) x = refsOf s.heap x := by
  show refsOf (List.foldl (fun h i => setStateH h i ObjectState.collected) _ _) x
    = refsOf s.heap x
  rw [foldl_setStateH_refsOf]
  exact mark_phase_refsOf s x

theorem collect_survivor_state (s : GCState) (hmem : MembersExist s) :
    ∀ x ∈ (collect s).1.all_objects,
      stateOf ((collect s).1.heap) x = some ObjectState.marked := by
  intro x hx
  rw [collect_all_objects] at hx
  obtain ⟨hxm, hpred⟩ := List.mem_filter.mp hx
  have hnu : ¬ (stateOf ((mark_phase s).1.heap) x = some ObjectState.unmarked) := by
    simpa using hpred
  have hmk : stateOf ((mark_phase s).1.heap) x = some ObjectState.marked := by
    rcases mark_phase_member_states s hmem x hxm with hm | hu
    · exact hm
    · exact absurd hu hnu
  show stateOf (List.foldl (fun h i => setStateH h i ObjectState.collected) _ _) x
    = some ObjectState.marked
  unfold stateOf
  rw [foldl_setStateH_not_mem]
  · exact hmk
  · intro hxg
    obtain ⟨_, hg⟩ := List.mem_filter.mp hxg
    exact hnu (of_decide_eq_true hg)

theorem collect_mem_iff (s : GCState) (hmem : MembersExist s)
    (hb : IdsBounded s) (hr : RootsLive s) (hc : RefsClosed s) :
    ∀ x, x ∈ (collect s).1.all_objects ↔
      (x ∈ s.all_objects ∧ ∃ r ∈ s.roots, RefPath s.heap r x) := by
  intro x
  rw [collect_all_objects, List.mem_filter]
  constructor
  · rintro ⟨hxm, hpred⟩
    have hnu : ¬ (stateOf ((mark_phase s).1.heap) x = some ObjectState.unmarked) := by
      simpa using hpred
    have hmk : stateOf ((mark_phase s).1.heap) x = some ObjectState.marked := by
      rcases mark_phase_member_states s hmem x hxm with hm | hu
      · exact hm
      · exact absurd hu hnu
    exact ⟨hxm, (mark_phase_marked_iff s hmem hb hr hc x hxm).mp hmk⟩
  · rintro ⟨hxm, hreach⟩
    refine ⟨hxm, ?_⟩
    have hmk := (mark_phase_marked_iff s hmem hb hr hc x hxm).mpr hreach
    simp [hmk]

theorem collect_preserves_inv (s : GCState) (hmem : MembersExist s)
    (hb : IdsBounded s) (hr : RootsLive s) (hc : RefsClosed s) :
    MembersExist (collect s).1 ∧ IdsBounded (collect s).1 ∧
    RootsLive (collect s).1 ∧ RefsClosed (collect s).1 := by
  refine ⟨?_, ?_, ?_, ?_⟩
  · intro i hi
    rw [collect_heap_isSome]
    rw [collect_all_objects] at hi
    exact hmem i (List.mem_filter.mp hi).1
  · intro i hi
    rw [collect_heap_isSome] at hi
    rw [collect_counter]
    exact hb i hi
  · intro r hrr
    rw [collect_roots] at hrr
    rw [collect_mem_iff s hmem hb hr hc r]
    exact ⟨hr r hrr, r, hrr, RefPath.refl r⟩
  · intro i hi j hj
    rw [collect_refsOf] at hj
    rw [collect_mem_iff s hmem hb hr hc i] at hi
    obtain ⟨him, r, hrr, hp⟩ := hi
    rw [collect_mem_iff s hmem hb hr hc j]
    exact ⟨hc i him j hj, r, hrr, RefPath.tail hp hj⟩

theorem countP_partition :
    ∀ (l : List Nat) (p q : Nat → Bool), (∀ x ∈ l, p x = !(q x)) →
      l.countP p + l.countP q = l.length := by
  intro l p q h
  induction l with
  | nil => rfl
  | cons a rest ih =>
    rw [List.countP_cons, List.countP_cons, List.length_cons]
    have ha := h a (List.mem_cons_self a rest)
    have hrest := ih (fun x hx => h x (List.mem_cons_of_mem a hx))
    cases hq : q a with
    | true => rw [hq] at ha; simp [ha, hq]; omega
    | false => rw [hq] at ha; simp [ha, hq]; omega

/-- The post-mark dichotomy for members: not `UNMARKED` means `MARKED`. -/
theorem mark_phase_not_unmarked_iff (s : GCState) (hmem : MembersExist s) :
    ∀ x ∈ s.all_objects,
      (¬ (stateOf ((mark_phase s).1.heap) x = some ObjectState.unmarked) ↔
        stateOf ((mark_phase s).1.heap) x = some ObjectState.marked) := by
  intro x hx
  rcases mark_phase_member_states s hmem x hx with hm | hu
  · simp [hm]
  · simp [hu]

theorem collect_conservation (s : GCState) (hmem : MembersExist s) :
    (collect s).2.marked_objects + (collect s).2.collected_objects
        = (collect s).2.initial_objects ∧
    (collect s).2.final_objects =
        (collect s).2.initial_objects - (collect s).2.collected_objects := by
  have hpm : ∀ x ∈ s.all_objects,
      (decide (stateOf ((mark_phase s).1.heap) x = some ObjectState.marked)) =
        !(decide (stateOf ((mark_phase s).1.heap) x = some ObjectState.unmarked)) := by
    intro x hx
    rcases mark_phase_member_states s hmem x hx with hm | hu
    · simp [hm]
    · simp [hu]
  have hpart : s.all_objects.countP
        (fun i => stateOf ((mark_phase s).1.heap) i = some ObjectState.marked)
      + s.all_objects.countP
        (fun i => stateOf ((mark_phase s).1.heap) i = some ObjectState.unmarked)
      = s.all_objects.length :=
    countP_partition s.all_objects _ _ hpm
  have hpart2 : s.all_objects.countP
        (fun i => ¬ (stateOf ((mark_phase s).1.heap) i = some ObjectState.unmarked))
      + s.all_objects.countP
        (fun i => stateOf ((mark_phase s).1.heap) i = some ObjectState.unmarked)
      = s.all_objects.length :=
    countP_partition s.all_objects _ _ (fun x _ => by simp)
  have hcoll : (collect s).2.collected_objects = s.all_objects.countP
      (fun i => stateOf ((mark_phase s).1.heap) i = some ObjectState.unmarked) := by
    rw [collect_stats_def]
    exact (List.countP_eq_length_filter _ _).symm
  have hmarked : (collect s).2.marked_objects = s.all_objects.countP
      (fun i => stateOf ((mark_phase s).1.heap) i = some ObjectState.marked) := by
    rw [collect_stats_def]
    exact mark_phase_count s
  have hfinal : (collect s).2.final_objects = s.all_objects.countP
      (fun i => ¬ (stateOf ((mark_phase s).1.heap) i = some ObjectState.unmarked)) := by
    rw [collect_stats_def]
    show (collect s).1.all_objects.length = _
    rw [collect_all_objects]
    exact (List.countP_eq_length_filter _ _).symm
  have hinit : (collect s).2.initial_objects = s.all_objects.length := by
    rw [collect_stats_def]
  rw [hcoll, hmarked, hfinal, hinit]
  omega

/-- Under the discipline that roots and member references stay inside
`all_objects`, a second `collect` right after a first one finds every
surviving member reachable again, so it collects nothing. -/
theorem collect_twice_no_garbage (s : GCState) (hmem : MembersExist s)
    (hb : IdsBounded s) (hr : RootsLive s) (hc : RefsClosed s) :
    (collect (collect s).1).2.collected_objects = 0 ∧
    (collect (collect s).1).1.all_objects = (collect s).1.all_objects := by
  obtain ⟨hmem1, hb1, hr1, hc1⟩ := collect_preserves_inv s hmem hb hr hc
  have hallmarked : ∀ x ∈ (collect s).1.all_objects,
      stateOf ((mark_phase (collect s).1).1.heap) x = some ObjectState.marked := by
    intro x hx
    obtain ⟨hxm, r, hrr, hp⟩ := (collect_mem_iff s hmem hb hr hc x).mp hx
    refine (mark_phase_marked_iff (collect s).1 hmem1 hb1 hr1 hc1 x hx).mpr ?_
    refine ⟨r, ?_, ?_⟩
    · rw [collect_roots]; exact hrr
    · exact refPath_congr (fun y => (collect_refsOf s y).symm) hp
  constructor
  · have hnil : (collect s).1.all_objects.filter
        (fun i => stateOf ((mark_phase (collect s).1).1.heap) i
          = some ObjectState.unmarked) = [] := by
      rw [List.filter_eq_nil_iff]
      intro a ha
      simp [hallmarked a ha]
    rw [collect_stats_def]
    show (List.filter _ _).length = 0
    rw [hnil]
    rfl
  · rw [collect_all_objects (collect s).1]
    apply List.filter_eq_self.mpr
    intro a ha
    simp [hallmarked a ha]

/-! ### Pointwise facts about the mutating operations -/

theorem add_reference_isSome (h : Heap) (a b j : Nat) :
    ((add_reference h a b) j).isSome = (h j).isSome := by
  unfold add_reference
  by_cases hj : j = a
  · subst hj; simp
  · simp [hj]

theorem add_reference_stateOf (h : Heap) (a b j : Nat) :
    stateOf (add_reference h a b) j = stateOf h j := by
  unfold stateOf add_reference
  by_cases hj : j = a
  · subst hj
    cases h j with
    | none => simp
    | some o => by_cases hb : b ∈ o.references <;> simp [hb]
  · simp [hj]

theorem add_reference_refsOf_ne (h : Heap) (a b j : Nat) (hj : j ≠ a) :
    refsOf (add_reference h a b) j = refsOf h j := by
  unfold refsOf add_reference
  simp [hj]

theorem add_reference_refsOf_self (h : Heap) (a b : Nat) (o : ObjData)
    (ho : h a = some o) :
    refsOf (add_reference h a b) a =
      if b ∈ o.references then o.references else o.references ++ [b] := by
  unfold refsOf add_reference
  simp [ho]
  by_cases hb : b ∈ o.references <;> simp [hb]

theorem remove_reference_isSome (h : Heap) (a b j : Nat) :
    ((remove_reference h a b) j).isSome = (h j).isSome := by
  unfold remove_reference
  by_cases hj : j = a
  · subst hj; simp
  · simp [hj]

theorem remove_reference_stateOf (h : Heap) (a b j : Nat) :
    stateOf (remove_reference h a b) j = stateOf h j := by
  unfold stateOf remove_reference
  by_cases hj : j = a
  · subst hj
    cases h j with
    | none => simp
    | some o => by_cases hb : b ∈ o.references <;> simp [hb]
  · simp [hj]

theorem remove_reference_refsOf_ne (h : Heap) (a b j : Nat) (hj : j ≠ a) :
    refsOf (remove_reference h a b) j = refsOf h j := by
  unfold refsOf remove_reference
  simp [hj]

theorem remove_reference_refsOf_self (h : Heap) (a b : Nat) (o : ObjData)
    (ho : h a = some o) :
    refsOf (remove_reference h a b) a =
      if b ∈ o.references then o.references.erase b else o.references := by
  unfold refsOf remove_reference
  simp [ho]
  by_cases hb : b ∈ o.references <;> simp [hb]

theorem mem_insertSet (l : List Nat) (i x : Nat) :
    x ∈ insertSet l i ↔ x ∈ l ∨ x = i := by
  unfold insertSet
  by_cases hi : i ∈ l
  · simp [hi]
    intro hx
    subst hx
    exact hi
  · simp [hi]

/-! ### The global run invariant -/

/-- Facts true in every state a fresh collector can reach, whatever the
operation sequence (even one passing dangling ids): members exist in the
heap, ids are bounded by the counter, no member is in the `COLLECTED` state,
and reference lists are duplicate-free. -/
structure Inv (s : GCState) : Prop where
  mem_dom : MembersExist s
  ids_bounded : IdsBounded s
  no_tombstone : ∀ i ∈ s.all_objects, stateOf s.heap i ≠ some ObjectState.collected
  refs_nodup : ∀ i, (refsOf s.heap i).Nodup

theorem inv_init : Inv init := by
  refine ⟨?_, ?_, ?_, ?_⟩
  · intro i hi; simp [init] at hi
  · intro i hi; simp [init, Option.isSome] at hi
  · intro i hi; simp [init] at hi
  · intro i; simp [init, refsOf]

theorem inv_applyOp (s : GCState) (op : Op) (hInv : Inv s) : Inv (applyOp s op) := by
  obtain ⟨hmem, hb, hnc, hnd⟩ := hInv
  cases op with
  | allocate n =>
    have hfresh : ∀ j, (s.heap j).isSome → j ≠ s.counter + 1 := by
      intro j hj he
      have := (hb j hj).2
      omega
    refine ⟨?_, ?_, ?_, ?_⟩
    · intro i hi
      rcases (mem_insertSet s.all_objects (s.counter + 1) i).mp hi with hil | hie
      · show ((s.heap.set (s.counter + 1) _) i).isSome
        rw [Heap.set_apply]
        rw [if_neg (hfresh i (hmem i hil))]
        exact hmem i hil
      · show ((s.heap.set (s.counter + 1) _) i).isSome
        rw [Heap.set_apply, if_pos hie]
        rfl
    · intro i hi
      show 1 ≤ i ∧ i ≤ s.counter + 1
      have hi' : ((s.heap.set (s.counter + 1) _) i).isSome := hi
      rw [Heap.set_apply] at hi'
      by_cases hie : i = s.counter + 1
      · omega
      · rw [if_neg hie] at hi'
        have := hb i hi'
        omega
    · intro i hi
      rcases (mem_insertSet s.all_objects (s.counter + 1) i).mp hi with hil | hie
      · show stateOf (s.heap.set (s.counter + 1) _) i ≠ some ObjectState.collected
        unfold stateOf
        rw [Heap.set_apply, if_neg (hfresh i (hmem i hil))]
        exact hnc i hil
      · show stateOf (s.heap.set (s.counter + 1) _) i ≠ some ObjectState.collected
        unfold stateOf
        rw [Heap.set_apply, if_pos hie]
        simp
    · intro i
      show (refsOf (s.heap.set (s.counter + 1) _) i).Nodup
      unfold refsOf
      rw [Heap.set_apply]
      by_cases hie : i = s.counter + 1
      · rw [if_pos hie]
        simp
      · rw [if_neg hie]
        exact hnd i
  | addRef a b =>
    refine ⟨?_, ?_, ?_, ?_⟩
    · intro i hi
      show ((add_reference s.heap a b) i).isSome
      rw [add_reference_isSome]
      exact hmem i hi
    · intro i hi
      show 1 ≤ i ∧ i ≤ s.counter
      have hi' : ((add_reference s.heap a b) i).isSome = (s.heap i).isSome :=
        add_reference_isSome s.heap a b i
      exact hb i (by rw [← hi']; exact hi)
    · intro i hi
      show stateOf (add_reference s.heap a b) i ≠ some ObjectState.collected
      rw [add_reference_stateOf]
      exact hnc i hi
    · intro i
      show (refsOf (add_reference s.heap a b) i).Nodup
      by_cases hia : i = a
      · subst hia
        cases ho : s.heap i with
        | none =>
          unfold refsOf add_reference
          simp [ho]
        | some o =>
          rw [add_reference_refsOf_self s.heap i b o ho]
          have hno : o.references.Nodup := by
            have := hnd i
            unfold refsOf at this
            rw [ho] at this
            exact this
          by_cases hbo : b ∈ o.references
          · rw [if_pos hbo]; exact hno
          · rw [if_neg hbo]
            refine List.Nodup.append hno (List.nodup_singleton b) ?_
            intro y hy hyb
            rw [List.mem_singleton] at hyb
            subst hyb
            exact hbo hy
      · rw [add_reference_refsOf_ne s.heap a b i hia]
        exact hnd i
  | removeRef a b =>
    refine ⟨?_, ?_, ?_, ?_⟩
    · intro i hi
      show ((remove_reference s.heap a b) i).isSome
      rw [remove_reference_isSome]
      exact hmem i hi
    · intro i hi
      show 1 ≤ i ∧ i ≤ s.counter
      have hi' : ((remove_reference s.heap a b) i).isSome = (s.heap i).isSome :=
        remove_reference_isSome s.heap a b i
      exact hb i (by rw [← hi']; exact hi)
    · intro i hi
      show stateOf (remove_reference s.heap a b) i ≠ some ObjectState.collected
      rw [remove_reference_stateOf]
      exact hnc i hi
    · intro i
      show (refsOf (remove_reference s.heap a b) i).Nodup
      by_cases hia : i = a
      · subst hia
        cases ho : s.heap i with
        | none =>
          unfold refsOf remove_reference
          simp [ho]
        | some o =>
          rw [remove_reference_refsOf_self s.heap i b o ho]
          have hno : o.references.Nodup := by
            have := hnd i
            unfold refsOf at this
            rw [ho] at this
            exact this
          by_cases hbo : b ∈ o.references
          · rw [if_pos hbo]; exact hno.erase b
          · rw [if_neg hbo]; exact hno
      · rw [remove_reference_refsOf_ne s.heap a b i hia]
        exact hnd i
  | addRoot i => exact ⟨hmem, hb, hnc, hnd⟩
  | removeRoot i =>
    unfold applyOp remove_root
    by_cases hi : i ∈ s.roots <;> simp [hi] <;> exact ⟨hmem, hb, hnc, hnd⟩
  | collect =>
    refine ⟨?_, ?_, ?_, ?_⟩
    · intro i hi
      show (((collect s).1.heap) i).isSome
      rw [collect_heap_isSome]
      have hi' : i ∈ (collect s).1.all_objects := hi
      rw [collect_all_objects] at hi'
      exact hmem i (List.mem_filter.mp hi').1
    · intro i hi
      show 1 ≤ i ∧ i ≤ (collect s).1.counter
      rw [collect_counter]
      have hi' : (((collect s).1.heap) i).isSome = (s.heap i).isSome :=
        collect_heap_isSome s i
      exact hb i (by rw [← hi']; exact hi)
    · intro i hi
      have := collect_survivor_state s hmem i hi
      show stateOf ((collect s).1.heap) i ≠ some ObjectState.collected
      rw [this]
      simp
    · intro i
      show (refsOf ((collect s).1.heap) i).Nodup
      rw [collect_refsOf]
      exact hnd i
  | getStats => exact ⟨hmem, hb, hnc, hnd⟩

theorem inv_runOps : ∀ (ops : List Op) (s : GCState), Inv s → Inv (runOps s ops) := by
  intro ops
  induction ops with
  | nil => intro s h; exact h
  | cons op rest ih =>
    intro s h
    exact ih (applyOp s op) (inv_applyOp s op h)

theorem inv_reachable {s : GCState} (h : ReachableGC s) : Inv s := by
  obtain ⟨ops, _, hrun⟩ := h
  rw [← hrun]
  exact inv_runOps ops init inv_init

/-! ### Objects never revisited by a collection keep their state -/

theorem collect_stateOf_unreachable (s : GCState) (x : Nat)
    (hxm : x ∉ s.all_objects)
    (hur : ¬ ∃ r ∈ s.roots, RefPath s.heap r x) :
    stateOf ((collect s).1.heap) x = stateOf s.heap x := by
  have h1 : stateOf (resetStates s.heap s.all_objects) x = stateOf s.heap x :=
    resetStates_stateOf_not_mem s.all_objects s.heap x hxm
  have h2 : stateOf ((mark_phase s).1.heap) x = stateOf s.heap x := by
    have he : HEvol (resetStates s.heap s.all_objects) ((mark_phase s).1.heap) :=
      markListFuel_evol (s.counter + 1) s.roots _
    rcases hevol_state_cases he x with hc | ⟨hnm, hm, _⟩
    · show stateOf ((mark_phase s).1.heap) x = stateOf s.heap x
      rw [← h1]
      exact hc
    · rcases markListFuel_sound (s.counter + 1) s.roots _ x hm with hm1 | ⟨r, hrr, hp⟩
      · exact absurd hm1 hnm
      · exact absurd ⟨r, hrr,
          refPath_congr (fun y => resetStates_refsOf s.all_objects s.heap y) hp⟩ hur
  show stateOf (List.foldl (fun h i => setStateH h i ObjectState.collected) _ _) x
    = stateOf s.heap x
  unfold stateOf
  rw [foldl_setStateH_not_mem]
  · exact h2
  · intro hxg
    exact hxm (List.mem_filter.mp hxg).1

/-- Modelled hypothesis for the amended claim C3: along the subsequent
operations, the tombstoned object `x` is never reachable from the root set at
any moment a `collect` runs — in particular it has not been re-added as a
root and is not referenced (transitively) from any root. -/
def NoRevive (x : Nat) : GCState → List Op → Prop
  | _, [] => True
  | s, op :: rest =>
      (op = Op.collect → ¬ ∃ r ∈ s.roots, RefPath s.heap r x) ∧
      NoRevive x (applyOp s op) rest

theorem applyOp_stateOf_non_collect (s : GCState) (op : Op) (x : Nat)
    (hx : (s.heap x).isSome) (hbnd : IdsBounded s)
    (hop : op ≠ Op.collect) :
    stateOf (applyOp s op).heap x = stateOf s.heap x := by
  cases op with
  | allocate n =>
    show stateOf (s.heap.set (s.counter + 1) _) x = stateOf s.heap x
    unfold stateOf
    rw [Heap.set_apply]
    have := (hbnd x hx).2
    rw [if_neg (by omega)]
  | addRef a b => exact add_reference_stateOf s.heap a b x
  | removeRef a b => exact remove_reference_stateOf s.heap a b x
  | addRoot i => rfl
  | removeRoot i =>
    show stateOf (remove_root s i).heap x = stateOf s.heap x
    unfold remove_root
    by_cases hi : i ∈ s.roots <;> simp [hi]
  | collect => exact absurd rfl hop
  | getStats => rfl

theorem collected_stays_collected : ∀ (ops : List Op) (s : GCState) (x : Nat),
    Inv s → stateOf s.heap x = some ObjectState.collected → NoRevive x s ops →
    stateOf (runOps s ops).heap x = some ObjectState.collected := by
  intro ops
  induction ops with
  | nil => intro s x _ hx _; exact hx
  | cons op rest ih =>
    intro s x hInv hx hnr
    obtain ⟨hcond, hnr'⟩ := hnr
    have hxs : (s.heap x).isSome := by
      unfold stateOf at hx
      cases ho : s.heap x with
      | none => rw [ho] at hx; simp at hx
      | some o => rfl
    have hstep : stateOf (applyOp s op).heap x = some ObjectState.collected := by
      by_cases hopc : op = Op.collect
      · subst hopc
        have hxm : x ∉ s.all_objects := by
          intro hmem
          exact hInv.no_tombstone x hmem hx
        show stateOf ((collect s).1.heap) x = some ObjectState.collected
        rw [collect_stateOf_unreachable s x hxm (hcond rfl)]
        exact hx
      · rw [applyOp_stateOf_non_collect s op x hxs hInv.ids_bounded hopc]
        exact hx
    exact ih (applyOp s op) x (inv_applyOp s op hInv) hstep hnr'

/-! ### Objects outside `all_objects` never re-enter it

`all_objects` only ever gains the fresh id of an `allocate`; an existing
object that is not a member can therefore never become one again, whatever
operations follow — even if its state is later changed back to `MARKED`. -/

theorem applyOp_heap_isSome_mono (s : GCState) (op : Op) (x : Nat)
    (hx : (s.heap x).isSome) : ((applyOp s op).heap x).isSome := by
  cases op with
  | allocate n =>
    show ((s.heap.set (s.counter + 1) ⟨n, [], ObjectState.unmarked⟩) x).isSome
    rw [Heap.set_apply]
    by_cases hxe : x = s.counter + 1
    · rw [if_pos hxe]
      rfl
    · rw [if_neg hxe]
      exact hx
  | addRef a b =>
    show ((add_reference s.heap a b) x).isSome
    rw [add_reference_isSome]
    exact hx
  | removeRef a b =>
    show ((remove_reference s.heap a b) x).isSome
    rw [remove_reference_isSome]
    exact hx
  | addRoot i => exact hx
  | removeRoot i =>
    show ((remove_root s i).heap x).isSome
    unfold remove_root
    by_cases hi : i ∈ s.roots
    · rw [if_pos hi]
      exact hx
    · rw [if_neg hi]
      exact hx
  | collect =>
    show (((collect s).1.heap) x).isSome
    rw [collect_heap_isSome]
    exact hx
  | getStats => exact hx

theorem applyOp_not_member (s : GCState) (op : Op) (x : Nat)
    (hb : IdsBounded s) (hx : (s.heap x).isSome) (hxm : x ∉ s.all_objects) :
    x ∉ (applyOp s op).all_objects := by
  cases op with
  | allocate n =>
    intro hmem
    have hmem' : x ∈ insertSet s.all_objects (s.counter + 1) := hmem
    rw [mem_insertSet] at hmem'
    rcases hmem' with h1 | h2
    · exact hxm h1
    · have := (hb x hx).2
      omega
  | addRef a b => exact hxm
  | removeRef a b => exact hxm
  | addRoot i => exact hxm
  | removeRoot i =>
    intro hmem
    have hall : (remove_root s i).all_objects = s.all_objects := by
      unfold remove_root
      by_cases hi : i ∈ s.roots
      · rw [if_pos hi]
      · rw [if_neg hi]
    have hmem' : x ∈ (remove_root s i).all_objects := hmem
    rw [hall] at hmem'
    exact hxm hmem'
  | collect =>
    intro hmem
    have hmem' : x ∈ (collect s).1.all_objects := hmem
    rw [collect_all_objects] at hmem'
    exact hxm (List.mem_filter.mp hmem').1
  | getStats => exact hxm

theorem nonmember_stays_out : ∀ (ops : List Op) (s : GCState) (x : Nat),
    Inv s → (s.heap x).isSome → x ∉ s.all_objects →
    x ∉ (runOps s ops).all_objects := by
  intro ops
  induction ops with
  | nil => intro s x _ _ hxm; exact hxm
  | cons op rest ih =>
    intro s x hInv hxs hxm
    exact ih (applyOp s op) x (inv_applyOp s op hInv)
      (applyOp_heap_isSome_mono s op x hxs)
      (applyOp_not_member s op x hInv.ids_bounded hxs hxm)

/-! ### States built by the mutators alone (no collection yet) -/

/-- The graph-building operations of claim C1: `allocate`,
`add_reference`/`remove_reference`, `add_root`/`remove_root`. -/
def builderOpB : Op → Bool
  | Op.collect => false
  | Op.getStats => false
  | _ => true

/-- Shape of a collector state built by legal mutator operations alone:
every object ever created is still a member, everything is `UNMARKED`, and
roots and references point at members. -/
structure BuilderInv (s : GCState) : Prop where
  base : Inv s
  dom_mem : ∀ i, (s.heap i).isSome → i ∈ s.all_objects
  fresh_states : ∀ i, (s.heap i).isSome → stateOf s.heap i = some ObjectState.unmarked
  roots_live : RootsLive s
  refs_closed : RefsClosed s

theorem builderInv_init : BuilderInv init := by
  refine ⟨inv_init, ?_, ?_, ?_, ?_⟩
  · intro i hi; simp [init, Option.isSome] at hi
  · intro i hi; simp [init, Option.isSome] at hi
  · intro r hr; simp [init] at hr
  · intro i hi; simp [init] at hi

theorem builderInv_applyOp (s : GCState) (op : Op) (hB : BuilderInv s)
    (hleg : legalOpB s op = true) (hbop : builderOpB op = true) :
    BuilderInv (applyOp s op) := by
  obtain ⟨hbase, hdm, hfr, hrl, hrc⟩ := hB
  have hinv' := inv_applyOp s op hbase
  cases op with
  | allocate n =>
    have hfresh : ∀ j, (s.heap j).isSome → j ≠ s.counter + 1 := by
      intro j hj he
      have := (hbase.ids_bounded j hj).2
      omega
    refine ⟨hinv', ?_, ?_, ?_, ?_⟩
    · intro i hi
      have hi' : ((s.heap.set (s.counter + 1) ⟨n, [], ObjectState.unmarked⟩) i).isSome := hi
      rw [Heap.set_apply] at hi'
      show i ∈ insertSet s.all_objects (s.counter + 1)
      rw [mem_insertSet]
      by_cases hie : i = s.counter + 1
      · exact Or.inr hie
      · rw [if_neg hie] at hi'
        exact Or.inl (hdm i hi')
    · intro i hi
      show stateOf (s.heap.set (s.counter + 1) ⟨n, [], ObjectState.unmarked⟩) i
        = some ObjectState.unmarked
      unfold stateOf
      rw [Heap.set_apply]
      by_cases hie : i = s.counter + 1
      · rw [if_pos hie]; rfl
      · rw [if_neg hie]
        have hi' : ((s.heap.set (s.counter + 1) ⟨n, [], ObjectState.unmarked⟩) i).isSome := hi
        rw [Heap.set_apply, if_neg hie] at hi'
        exact hfr i hi'
    · intro r hr
      show r ∈ insertSet s.all_objects (s.counter + 1)
      rw [mem_insertSet]
      exact Or.inl (hrl r hr)
    · intro i hi j hj
      have hj' : j ∈ refsOf (s.heap.set (s.counter + 1) ⟨n, [], ObjectState.unmarked⟩) i := hj
      show j ∈ insertSet s.all_objects (s.counter + 1)
      rw [mem_insertSet]
      have hi' : i ∈ insertSet s.all_objects (s.counter + 1) := hi
      rw [mem_insertSet] at hi'
      rcases hi' with him | hie
      · refine Or.inl (hrc i him j ?_)
        have hrne : refsOf (s.heap.set (s.counter + 1) ⟨n, [], ObjectState.unmarked⟩) i
            = refsOf s.heap i := by
          unfold refsOf
          rw [Heap.set_apply, if_neg (hfresh i (hbase.mem_dom i him))]
        rw [hrne] at hj'
        exact hj'
      · have hz : refsOf (s.heap.set (s.counter + 1) ⟨n, [], ObjectState.unmarked⟩) i = [] := by
          unfold refsOf
          rw [Heap.set_apply, if_pos hie]
          rfl
        rw [hz] at hj'
        simp at hj'
  | addRef a b =>
    have hlegs : (s.heap a).isSome ∧ (s.heap b).isSome := by
      unfold legalOpB at hleg
      exact ⟨(Bool.and_eq_true_iff.mp hleg).1, (Bool.and_eq_true_iff.mp hleg).2⟩
    refine ⟨hinv', ?_, ?_, ?_, ?_⟩
    · intro i hi
      have hi' : ((add_reference s.heap a b) i).isSome := hi
      rw [add_reference_isSome] at hi'
      exact hdm i hi'
    · intro i hi
      have hi' : ((add_reference s.heap a b) i).isSome := hi
      rw [add_reference_isSome] at hi'
      show stateOf (add_reference s.heap a b) i = some ObjectState.unmarked
      rw [add_reference_stateOf]
      exact hfr i hi'
    · exact hrl
    · intro i hi j hj
      have hj' : j ∈ refsOf (add_reference s.heap a b) i := hj
      show j ∈ s.all_objects
      by_cases hia : i = a
      · subst hia
        cases ho : s.heap i with
        | none =>
          have hz : refsOf (add_reference s.heap i b) i = [] := by
            unfold refsOf add_reference
            simp [ho]
          rw [hz] at hj'
          simp at hj'
        | some o =>
          rw [add_reference_refsOf_self s.heap i b o ho] at hj'
          have horefs : refsOf s.heap i = o.references := by
            unfold refsOf; rw [ho]; rfl
          by_cases hbo : b ∈ o.references
          · rw [if_pos hbo] at hj'
            exact hrc i hi j (by rw [horefs]; exact hj')
          · rw [if_neg hbo] at hj'
            rcases List.mem_append.mp hj' with hjo | hjb
            · exact hrc i hi j (by rw [horefs]; exact hjo)
            · rw [List.mem_singleton] at hjb
              subst hjb
              exact hdm j hlegs.2
      · rw [add_reference_refsOf_ne s.heap a b i hia] at hj'
        exact hrc i hi j hj'
  | removeRef a b =>
    refine ⟨hinv', ?_, ?_, ?_, ?_⟩
    · intro i hi
      have hi' : ((remove_reference s.heap a b) i).isSome := hi
      rw [remove_reference_isSome] at hi'
      exact hdm i hi'
    · intro i hi
      have hi' : ((remove_reference s.heap a b) i).isSome := hi
      rw [remove_reference_isSome] at hi'
      show stateOf (remove_reference s.heap a b) i = some ObjectState.unmarked
      rw [remove_reference_stateOf]
      exact hfr i hi'
    · exact hrl
    · intro i hi j hj
      have hj' : j ∈ refsOf (remove_reference s.heap a b) i := hj
      show j ∈ s.all_objects
      by_cases hia : i = a
      · subst hia
        cases ho : s.heap i with
        | none =>
          have hz : refsOf (remove_reference s.heap i b) i = [] := by
            unfold refsOf remove_reference
            simp [ho]
          rw [hz] at hj'
          simp at hj'
        | some o =>
          rw [remove_reference_refsOf_self s.heap i b o ho] at hj'
          have horefs : refsOf s.heap i = o.references := by
            unfold refsOf; rw [ho]; rfl
          by_cases hbo : b ∈ o.references
          · rw [if_pos hbo] at hj'
            exact hrc i hi j (by rw [horefs]; exact List.mem_of_mem_erase hj')
          · rw [if_neg hbo] at hj'
            exact hrc i hi j (by rw [horefs]; exact hj')
      · rw [remove_reference_refsOf_ne s.heap a b i hia] at hj'
        exact hrc i hi j hj'
  | addRoot i =>
    refine ⟨hinv', hdm, hfr, ?_, hrc⟩
    intro r hr
    have hr' : r ∈ insertSet s.roots i := hr
    rw [mem_insertSet] at hr'
    rcases hr' with hrm | hre
    · exact hrl r hrm
    · subst hre
      exact hdm r hleg
  | removeRoot i =>
    have heq : (remove_root s i).heap = s.heap ∧
        (remove_root s i).all_objects = s.all_objects ∧
        (∀ r, r ∈ (remove_root s i).roots → r ∈ s.roots) := by
      unfold remove_root
      by_cases hi : i ∈ s.roots
      · rw [if_pos hi]
        exact ⟨rfl, rfl, fun r hr => List.mem_of_mem_erase hr⟩
      · rw [if_neg hi]
        exact ⟨rfl, rfl, fun r hr => hr⟩
    refine ⟨hinv', ?_, ?_, ?_, ?_⟩
    · intro j hj
      show j ∈ (remove_root s i).all_objects
      rw [heq.2.1]
      refine hdm j ?_
      have hj' : ((remove_root s i).heap j).isSome := hj
      rw [heq.1] at hj'
      exact hj'
    · intro j hj
      show stateOf (remove_root s i).heap j = some ObjectState.unmarked
      rw [heq.1]
      have hj' : ((remove_root s i).heap j).isSome := hj
      rw [heq.1] at hj'
      exact hfr j hj'
    · intro r hr
      show r ∈ (remove_root s i).all_objects
      rw [heq.2.1]
      have hr' : r ∈ (remove_root s i).roots := hr
      exact hrl r (heq.2.2 r hr')
    · intro j hj k hk
      have hj2 : j ∈ (remove_root s i).all_objects := hj
      rw [heq.2.1] at hj2
      have hk2 : k ∈ refsOf (remove_root s i).heap j := hk
      rw [heq.1] at hk2
      show k ∈ (remove_root s i).all_objects
      rw [heq.2.1]
      exact hrc j hj2 k hk2
  | collect => simp [builderOpB] at hbop
  | getStats => exact ⟨hinv', hdm, hfr, hrl, hrc⟩

theorem builderInv_runOps : ∀ (ops : List Op) (s : GCState), BuilderInv s →
    legalOpsB s ops = true → ops.all builderOpB = true →
    BuilderInv (runOps s ops) := by
  intro ops
  induction ops with
  | nil => intro s h _ _; exact h
  | cons op rest ih =>
    intro s h hleg hbld
    rw [legalOpsB] at hleg
    obtain ⟨hleg1, hleg2⟩ := Bool.and_eq_true_iff.mp hleg
    rw [List.all_cons] at hbld
    obtain ⟨hbld1, hbld2⟩ := Bool.and_eq_true_iff.mp hbld
    exact ih (applyOp s op) (builderInv_applyOp s op h hleg1 hbld1) hleg2 hbld2

/-! ### Root discipline (for the amended claim C4) -/

/-- The per-operation guard of the root discipline: an `add_root` must name
a current member of `all_objects`; every other operation is unrestricted. -/
def rootGuardB (s : GCState) : Op → Bool
  | Op.allocate _ => true
  | Op.addRef _ _ => true
  | Op.removeRef _ _ => true
  | Op.addRoot i => decide (i ∈ s.all_objects)
  | Op.removeRoot _ => true
  | Op.collect => true
  | Op.getStats => true

/-- `add_root` is only ever applied to objects currently in `all_objects`
(the caller discipline the spec demands; the reference `add_root` itself
inserts unconditionally). -/
def RootDisciplinedB : GCState → List Op → Bool
  | _, [] => true
  | s, op :: rest => rootGuardB s op && RootDisciplinedB (applyOp s op) rest

theorem collect_roots_live (s : GCState) (hmem : MembersExist s)
    (hrl : RootsLive s) : RootsLive (collect s).1 := by
  intro r hr
  have hr' : r ∈ s.roots := hr
  show r ∈ (collect s).1.all_objects
  rw [collect_all_objects]
  refine List.mem_filter.mpr ⟨hrl r hr', ?_⟩
  have hmk : stateOf ((mark_phase s).1.heap) r = some ObjectState.marked := by
    show stateOf (markListFuel (s.counter + 1) (resetStates s.heap s.all_objects) s.roots) r
      = some ObjectState.marked
    refine markListFuel_marks_mem (s.counter + 1) s.roots (by omega) _ r hr' ?_
    rw [resetStates_isSome]
    exact hmem r (hrl r hr')
  simp [hmk]

theorem rootDisciplined_roots_live : ∀ (ops : List Op) (s : GCState), Inv s →
    RootsLive s → RootDisciplinedB s ops = true → RootsLive (runOps s ops) := by
  intro ops
  induction ops with
  | nil => intro s _ hrl _; exact hrl
  | cons op rest ih =>
    intro s hInv hrl hd
    rw [RootDisciplinedB] at hd
    obtain ⟨hd1, hd2⟩ := Bool.and_eq_true_iff.mp hd
    refine ih (applyOp s op) (inv_applyOp s op hInv) ?_ hd2
    cases op with
    | allocate n =>
      intro r hr
      have hr' : r ∈ s.roots := hr
      show r ∈ insertSet s.all_objects (s.counter + 1)
      rw [mem_insertSet]
      exact Or.inl (hrl r hr')
    | addRef a b => exact hrl
    | removeRef a b => exact hrl
    | addRoot i =>
      intro r hr
      have hr' : r ∈ insertSet s.roots i := hr
      rw [mem_insertSet] at hr'
      rcases hr' with hrm | hre
      · exact hrl r hrm
      · subst hre
        exact of_decide_eq_true hd1
    | removeRoot i =>
      intro r hr
      have hr2 : r ∈ (remove_root s i).roots := hr
      have hsub : ∀ x, x ∈ (remove_root s i).roots → x ∈ s.roots := by
        unfold remove_root
        by_cases hi : i ∈ s.roots
        · rw [if_pos hi]; exact fun x hx => List.mem_of_mem_erase hx
        · rw [if_neg hi]; exact fun x hx => hx
      have hall : (remove_root s i).all_objects = s.all_objects := by
        unfold remove_root
        by_cases hi : i ∈ s.roots
        · rw [if_pos hi]
        · rw [if_neg hi]
      show r ∈ (remove_root s i).all_objects
      rw [hall]
      exact hrl r (hsub r hr2)
    | collect => exact collect_roots_live s hInv.mem_dom hrl
    | getStats => exact hrl

/-! ### Accounting across operations (for claim C7) -/

theorem applyOp_history_length (s : GCState) (op : Op) :
    (applyOp s op).collection_history.length =
      s.collection_history.length + (if op = Op.collect then 1 else 0) := by
  cases op with
  | allocate n => rfl
  | addRef a b => rfl
  | removeRef a b => rfl
  | addRoot i => rfl
  | removeRoot i =>
    show (remove_root s i).collection_history.length = _
    unfold remove_root
    by_cases hi : i ∈ s.roots
    · rw [if_pos hi]; simp
    · rw [if_neg hi]; simp
  | collect =>
    show ((collect s).1).collection_history.length = _
    rw [collect_history]
    simp
  | getStats => rfl

theorem applyOp_count_sum (s : GCState) (op : Op)
    (h : s.collected_count = (s.collection_history.map CycleStats.collected_objects).sum) :
    (applyOp s op).collected_count =
      ((applyOp s op).collection_history.map CycleStats.collected_objects).sum := by
  cases op with
  | allocate n => exact h
  | addRef a b => exact h
  | removeRef a b => exact h
  | addRoot i => exact h
  | removeRoot i =>
    show (remove_root s i).collected_count = ((remove_root s i).collection_history.map _).sum
    unfold remove_root
    by_cases hi : i ∈ s.roots
    · rw [if_pos hi]; exact h
    · rw [if_neg hi]; exact h
  | collect =>
    show ((collect s).1).collected_count = (((collect s).1).collection_history.map _).sum
    rw [collect_history, collect_collected_count, h]
    simp
  | getStats => exact h

theorem applyOp_count_mono (s : GCState) (op : Op) :
    s.collected_count ≤ (applyOp s op).collected_count ∧
    s.collection_history.length ≤ (applyOp s op).collection_history.length := by
  constructor
  · cases op with
    | allocate n => exact Nat.le_refl _
    | addRef a b => exact Nat.le_refl _
    | removeRef a b => exact Nat.le_refl _
    | addRoot i => exact Nat.le_refl _
    | removeRoot i =>
      show s.collected_count ≤ (remove_root s i).collected_count
      unfold remove_root
      by_cases hi : i ∈ s.roots
      · rw [if_pos hi]
      · rw [if_neg hi]
    | collect =>
      show s.collected_count ≤ ((collect s).1).collected_count
      rw [collect_collected_count]
      omega
    | getStats => exact Nat.le_refl _
  · rw [applyOp_history_length]
    omega

/-! ### Allocation identities (for claim C9) -/

/-- The ids handed out by the `allocate` calls of an operation sequence, in
order. -/
def allocIds : GCState → List Op → List Nat
  | _, [] => []
  | s, Op.allocate n :: rest => (allocate s n).2 :: allocIds (applyOp s (Op.allocate n)) rest
  | s, Op.addRef a b :: rest => allocIds (applyOp s (Op.addRef a b)) rest
  | s, Op.removeRef a b :: rest => allocIds (applyOp s (Op.removeRef a b)) rest
  | s, Op.addRoot i :: rest => allocIds (applyOp s (Op.addRoot i)) rest
  | s, Op.removeRoot i :: rest => allocIds (applyOp s (Op.removeRoot i)) rest
  | s, Op.collect :: rest => allocIds (applyOp s Op.collect) rest
  | s, Op.getStats :: rest => allocIds (applyOp s Op.getStats) rest

theorem applyOp_counter_mono (s : GCState) (op : Op) :
    s.counter ≤ (applyOp s op).counter := by
  cases op with
  | allocate n => exact Nat.le_succ _
  | addRef a b => exact Nat.le_refl _
  | removeRef a b => exact Nat.le_refl _
  | addRoot i => exact Nat.le_refl _
  | removeRoot i =>
    show s.counter ≤ (remove_root s i).counter
    unfold remove_root
    by_cases hi : i ∈ s.roots
    · rw [if_pos hi]
    · rw [if_neg hi]
  | collect =>
    show s.counter ≤ ((collect s).1).counter
    rw [collect_counter]
  | getStats => exact Nat.le_refl _

theorem allocIds_gt_counter : ∀ (ops : List Op) (s : GCState) (x : Nat),
    x ∈ allocIds s ops → s.counter < x := by
  intro ops
  induction ops with
  | nil => intro s x hx; simp [allocIds] at hx
  | cons op rest ih =>
    intro s x hx
    cases op with
    | allocate n =>
      rw [allocIds] at hx
      rcases List.mem_cons.mp hx with he | hm
      · rw [he]
        show s.counter < s.counter + 1
        omega
      · have := ih (applyOp s (Op.allocate n)) x hm
        have hc : (applyOp s (Op.allocate n)).counter = s.counter + 1 := rfl
        omega
    | addRef a b =>
      rw [allocIds] at hx
      have := ih _ x hx
      have hc := applyOp_counter_mono s (Op.addRef a b)
      omega
    | removeRef a b =>
      rw [allocIds] at hx
      have := ih _ x hx
      have hc := applyOp_counter_mono s (Op.removeRef a b)
      omega
    | addRoot i =>
      rw [allocIds] at hx
      have := ih _ x hx
      have hc := applyOp_counter_mono s (Op.addRoot i)
      omega
    | removeRoot i =>
      rw [allocIds] at hx
      have := ih _ x hx
      have hc := applyOp_counter_mono s (Op.removeRoot i)
      omega
    | collect =>
      rw [allocIds] at hx
      have := ih _ x hx
      have hc := applyOp_counter_mono s Op.collect
      omega
    | getStats =>
      rw [allocIds] at hx
      have := ih _ x hx
      have hc := applyOp_counter_mono s Op.getStats
      omega

theorem allocIds_pairwise : ∀ (ops : List Op) (s : GCState),
    List.Pairwise (fun a b => a < b) (allocIds s ops) := by
  intro ops
  induction ops with
  | nil => intro s; rw [allocIds]; exact List.Pairwise.nil
  | cons op rest ih =>
    intro s
    cases op with
    | allocate n =>
      rw [allocIds]
      refine List.Pairwise.cons ?_ (ih (applyOp s (Op.allocate n)))
      intro x hx
      have := allocIds_gt_counter rest (applyOp s (Op.allocate n)) x hx
      show s.counter + 1 < x
      have hc : (applyOp s (Op.allocate n)).counter = s.counter + 1 := rfl
      omega
    | addRef a b => rw [allocIds]; exact ih _
    | removeRef a b => rw [allocIds]; exact ih _
    | addRoot i => rw [allocIds]; exact ih _
    | removeRoot i => rw [allocIds]; exact ih _
    | collect => rw [allocIds]; exact ih _
    | getStats => rw [allocIds]; exact ih _

/-- The ids assigned by a sequence of `ManagedObject` constructions threading
the class counter `_id_counter` (shared by every collector instance in the
process). -/
def creationIds : Nat → List String → List Nat
  | _, [] => []
  | c, _ :: rest => (managedObjectInit c).2 :: creationIds (managedObjectInit c).1 rest

theorem creationIds_gt : ∀ (names : List String) (c x : Nat),
    x ∈ creationIds c names → c < x := by
  intro names
  induction names with
  | nil => intro c x hx; simp [creationIds] at hx
  | cons n rest ih =>
    intro c x hx
    rw [creationIds] at hx
    rcases List.mem_cons.mp hx with he | hm
    · rw [he]; show c < c + 1; omega
    · have := ih (c + 1) x hm
      omega

theorem creationIds_pairwise : ∀ (names : List String) (c : Nat),
    List.Pairwise (fun a b => a < b) (creationIds c names) := by
  intro names
  induction names with
  | nil => intro c; rw [creationIds]; exact List.Pairwise.nil
  | cons n rest ih =>
    intro c
    rw [creationIds]
    refine List.Pairwise.cons ?_ (ih (c + 1))
    intro x hx
    exact creationIds_gt rest (c + 1) x hx

/-! ## The claims -/

/-- C1: for every object graph and root set built through `allocate`,
`add_reference`/`remove_reference` and `add_root`/`remove_root` (on valid
handles), after `collect()` returns an object is a member of `all_objects`
iff there is a directed reference path (the zero-length path included) from
some member of `roots` to it; every survivor ends the cycle `Marked`, and
every removed object was `Unmarked` after the mark phase. -/
theorem C1_reachability_after_collect (ops : List Op)
    (hleg : legalOpsB init ops = true)
    (hbuild : ops.all builderOpB = true) :
    (∀ x, x ∈ (collect (runOps init ops)).1.all_objects ↔
      ∃ r ∈ (runOps init ops).roots, RefPath (runOps init ops).heap r x)
    ∧ (∀ x ∈ (collect (runOps init ops)).1.all_objects,
        stateOf ((collect (runOps init ops)).1.heap) x = some ObjectState.marked)
    ∧ (∀ x ∈ (runOps init ops).all_objects,
        x ∉ (collect (runOps init ops)).1.all_objects →
        stateOf ((mark_phase (runOps init ops)).1.heap) x = some ObjectState.unmarked) := by
  obtain ⟨hbase, hdm, hfr, hrl, hrc⟩ := builderInv_runOps ops init builderInv_init hleg hbuild
  have hmem := hbase.mem_dom
  have hb := hbase.ids_bounded
  refine ⟨?_, collect_survivor_state _ hmem, ?_⟩
  · intro x
    rw [collect_mem_iff _ hmem hb hrl hrc x]
    constructor
    · exact fun h => h.2
    · rintro ⟨r, hrr, hp⟩
      exact ⟨(mpath_of_refPath_members _ hmem hrc (hrl r hrr) hp).2, r, hrr, hp⟩
  · intro x hx hnx
    by_contra hne
    apply hnx
    rw [collect_all_objects]
    exact List.mem_filter.mpr ⟨hx, decide_eq_true hne⟩

theorem C1_witness :
    legalOpsB init [Op.allocate "a", Op.addRoot 1] = true ∧
    [Op.allocate "a", Op.addRoot 1].all builderOpB = true ∧
    (∀ x, x ∈ (collect (runOps init [Op.allocate "a", Op.addRoot 1])).1.all_objects ↔
      ∃ r ∈ (runOps init [Op.allocate "a", Op.addRoot 1]).roots,
        RefPath (runOps init [Op.allocate "a", Op.addRoot 1]).heap r x) :=
  ⟨by decide, by decide,
   (C1_reachability_after_collect [Op.allocate "a", Op.addRoot 1]
     (by decide) (by decide)).1⟩

/-- C2: for every reachable collector state, the statistics dictionary
returned by `collect()` satisfies
`marked_objects + collected_objects = initial_objects` and
`final_objects = initial_objects - collected_objects`, where
`initial_objects`/`final_objects` are the sizes of `all_objects` immediately
before and after the cycle. -/
theorem C2_conservation (s : GCState) (hreach : ReachableGC s) :
    (collect s).2.marked_objects + (collect s).2.collected_objects
        = (collect s).2.initial_objects
    ∧ (collect s).2.final_objects
        = (collect s).2.initial_objects - (collect s).2.collected_objects
    ∧ (collect s).2.initial_objects = s.all_objects.length
    ∧ (collect s).2.final_objects = (collect s).1.all_objects.length := by
  obtain ⟨h1, h2⟩ := collect_conservation s (inv_reachable hreach).mem_dom
  exact ⟨h1, h2, rfl, rfl⟩

theorem C2_witness :
    ReachableGC (runOps init [Op.allocate "a"]) ∧
    (collect (runOps init [Op.allocate "a"])).2.marked_objects
      + (collect (runOps init [Op.allocate "a"])).2.collected_objects
      = (collect (runOps init [Op.allocate "a"])).2.initial_objects :=
  ⟨⟨[Op.allocate "a"], by decide, rfl⟩,
   (C2_conservation (runOps init [Op.allocate "a"])
     ⟨[Op.allocate "a"], by decide, rfl⟩).1⟩

/-- C3 counterexample: `Collected` is not terminal in the code.  Allocate one
object, collect it (its state becomes `COLLECTED`), then re-add it as a root
(`add_root` inserts unconditionally) and collect again: the mark phase sets
its state back to `MARKED`, so a later public operation did change the state
of a collected object. -/
theorem C3_counterexample :
    legalOpsB init [Op.allocate "a", Op.collect, Op.addRoot 1, Op.collect] = true ∧
    stateOf (runOps init [Op.allocate "a", Op.collect]).heap 1
      = some ObjectState.collected ∧
    stateOf (runOps init [Op.allocate "a", Op.collect, Op.addRoot 1, Op.collect]).heap 1
      = some ObjectState.marked :=
  ⟨by decide, by decide, by decide⟩

/-- C3 (amended): in every reachable state a `Collected` object is outside
`all_objects` and — unconditionally, under every later operation sequence —
never reappears in it; its state, however, is only guaranteed to stay
`Collected` provided the object is never reachable from the root set at a
moment a `collect` runs (`NoRevive`) — in particular if it is never re-added
as a root and never referenced from a root-reachable object. -/
theorem C3_amended_tombstone (s : GCState) (x : Nat)
    (hreach : ReachableGC s)
    (hx : stateOf s.heap x = some ObjectState.collected) :
    (∀ ops : List Op, x ∉ (runOps s ops).all_objects) ∧
    (∀ ops : List Op, NoRevive x s ops →
      stateOf (runOps s ops).heap x = some ObjectState.collected) := by
  have hInv := inv_reachable hreach
  have hxs : (s.heap x).isSome := by
    unfold stateOf at hx
    cases ho : s.heap x with
    | none => rw [ho] at hx; simp at hx
    | some o => rfl
  have hxm : x ∉ s.all_objects := fun hmem => hInv.no_tombstone x hmem hx
  refine ⟨?_, ?_⟩
  · intro ops
    exact nonmember_stays_out ops s x hInv hxs hxm
  · intro ops hnr
    exact collected_stays_collected ops s x hInv hx hnr

theorem C3_witness :
    ReachableGC (runOps init [Op.allocate "a", Op.collect]) ∧
    stateOf (runOps init [Op.allocate "a", Op.collect]).heap 1
      = some ObjectState.collected ∧
    NoRevive 1 (runOps init [Op.allocate "a", Op.collect])
      [Op.allocate "b", Op.collect] ∧
    (1 ∉ (runOps (runOps init [Op.allocate "a", Op.collect])
        [Op.addRoot 1, Op.collect]).all_objects) ∧
    stateOf (runOps (runOps init [Op.allocate "a", Op.collect])
        [Op.allocate "b", Op.collect]).heap 1 = some ObjectState.collected := by
  have hreach : ReachableGC (runOps init [Op.allocate "a", Op.collect]) :=
    ⟨[Op.allocate "a", Op.collect], by decide, rfl⟩
  have hx : stateOf (runOps init [Op.allocate "a", Op.collect]).heap 1
      = some ObjectState.collected := by decide
  have hnr : NoRevive 1 (runOps init [Op.allocate "a", Op.collect])
      [Op.allocate "b", Op.collect] := by
    refine ⟨?_, ?_, trivial⟩
    · intro h
      exact Op.noConfusion h
    · intro _
      rintro ⟨r, hr, _⟩
      have hroots : (applyOp (runOps init [Op.allocate "a", Op.collect])
          (Op.allocate "b")).roots = [] := by decide
      rw [hroots] at hr
      simp at hr
  exact ⟨hreach, hx, hnr,
    (C3_amended_tombstone (runOps init [Op.allocate "a", Op.collect]) 1 hreach hx).1
      [Op.addRoot 1, Op.collect],
    (C3_amended_tombstone (runOps init [Op.allocate "a", Op.collect]) 1 hreach hx).2
      [Op.allocate "b", Op.collect] hnr⟩

/-- C4 counterexample: `add_root` inserts unconditionally, so rooting an
already-swept object produces a reachable state whose `roots` contains an
object absent from `all_objects`. -/
theorem C4_counterexample :
    legalOpsB init [Op.allocate "a", Op.collect, Op.addRoot 1] = true ∧
    (runOps init [Op.allocate "a", Op.collect, Op.addRoot 1]).roots = [1] ∧
    (runOps init [Op.allocate "a", Op.collect, Op.addRoot 1]).all_objects = [] :=
  ⟨by decide, by decide, by decide⟩

/-- C4 (amended): provided `add_root` is only ever applied to objects that
are currently members of `all_objects`, every reachable state satisfies
`roots ⊆ all_objects` (collection never breaks the inclusion, since roots
are always marked). -/
theorem C4_amended_roots_subset (ops : List Op)
    (hd : RootDisciplinedB init ops = true) :
    ∀ r ∈ (runOps init ops).roots, r ∈ (runOps init ops).all_objects := by
  refine rootDisciplined_roots_live ops init inv_init ?_ hd
  intro r hr
  simp [init] at hr

theorem C4_witness :
    RootDisciplinedB init [Op.allocate "a", Op.addRoot 1, Op.collect] = true ∧
    ∀ r ∈ (runOps init [Op.allocate "a", Op.addRoot 1, Op.collect]).roots,
      r ∈ (runOps init [Op.allocate "a", Op.addRoot 1, Op.collect]).all_objects :=
  ⟨by decide,
   C4_amended_roots_subset [Op.allocate "a", Op.addRoot 1, Op.collect] (by decide)⟩

/-- C5 counterexample: re-collection is not idempotent on every collector
state.  Allocate objects 1 and 2, collect both (they become `COLLECTED`
tombstones), then allocate 3 and 4, make the tombstone 1 reference 3, root 4
and make it reference 1.  The next `collect` re-marks the tombstone 1 (it is
not reset, being outside `all_objects`) and traverses through it, so nothing
is collected; the `collect` immediately after skips the now-`MARKED`
tombstone, never reaches 3, and collects it: the second of two back-to-back
collects returns `collected_objects = 1`, and `all_objects` shrinks. -/
theorem C5_counterexample :
    legalOpsB init [Op.allocate "n", Op.allocate "y", Op.collect, Op.allocate "y2",
      Op.allocate "r", Op.addRef 1 3, Op.addRef 4 1, Op.addRoot 4,
      Op.collect, Op.collect] = true ∧
    ((collect (runOps init [Op.allocate "n", Op.allocate "y", Op.collect,
      Op.allocate "y2", Op.allocate "r", Op.addRef 1 3, Op.addRef 4 1,
      Op.addRoot 4, Op.collect])).2).collected_objects = 1 ∧
    (runOps init [Op.allocate "n", Op.allocate "y", Op.collect, Op.allocate "y2",
      Op.allocate "r", Op.addRef 1 3, Op.addRef 4 1, Op.addRoot 4,
      Op.collect]).all_objects = [3, 4] ∧
    ((collect (runOps init [Op.allocate "n", Op.allocate "y", Op.collect,
      Op.allocate "y2", Op.allocate "r", Op.addRef 1 3, Op.addRef 4 1,
      Op.addRoot 4, Op.collect])).1).all_objects = [4] :=
  ⟨by decide, by decide, by decide, by decide⟩

/-- C5 (amended): for every reachable collector state in which every root is
a member of `all_objects` and members only reference members (in particular
whenever no collected object has been re-rooted or re-referenced), calling
`collect()` twice in succession yields `collected_objects = 0` on the second
call and leaves `all_objects` unchanged. -/
theorem C5_amended_idempotent (s : GCState) (hreach : ReachableGC s)
    (hr : RootsLive s) (hc : RefsClosed s) :
    (collect (collect s).1).2.collected_objects = 0 ∧
    (collect (collect s).1).1.all_objects = (collect s).1.all_objects := by
  have hInv := inv_reachable hreach
  exact collect_twice_no_garbage s hInv.mem_dom hInv.ids_bounded hr hc

theorem C5_witness :
    ReachableGC (runOps init [Op.allocate "a", Op.addRoot 1, Op.addRef 1 1]) ∧
    RootsLive (runOps init [Op.allocate "a", Op.addRoot 1, Op.addRef 1 1]) ∧
    RefsClosed (runOps init [Op.allocate "a", Op.addRoot 1, Op.addRef 1 1]) ∧
    (collect (collect (runOps init
      [Op.allocate "a", Op.addRoot 1, Op.addRef 1 1])).1).2.collected_objects = 0 :=
  ⟨⟨[Op.allocate "a", Op.addRoot 1, Op.addRef 1 1], by decide, rfl⟩,
   by unfold RootsLive; decide, by unfold RefsClosed; decide,
   (C5_amended_idempotent (runOps init [Op.allocate "a", Op.addRoot 1, Op.addRef 1 1])
     ⟨[Op.allocate "a", Op.addRoot 1, Op.addRef 1 1], by decide, rfl⟩
     (by unfold RootsLive; decide) (by unfold RefsClosed; decide)).1⟩

/-- C6: the recursive mark traversal terminates on every finite reference
graph, self-loops and cycles included, because the already-marked check
bounds the work: any two fuel values strictly exceeding the number of
existing non-`MARKED` objects give the same result, and `mark_phase`
computed with any sufficient fuel equals the one the collector runs, so the
embedded recursion never exhausts its fuel and `mark_phase` is a total
function of the collector state. -/
theorem C6_mark_terminates :
    (∀ (L : List Nat) (h : Heap) (i f1 f2 : Nat), Covers L h →
      ucOn L h < f1 → ucOn L h < f2 → markFuel f1 h i = markFuel f2 h i) ∧
    (∀ (s : GCState) (f : Nat), IdsBounded s → s.counter < f →
      markPhaseFuel s f = mark_phase s) := by
  constructor
  · intro L h i f1 f2 hcov hf1 hf2
    exact markFuel_fuel_irrelevant L (ucOn L h) f1 f2 h i hcov (Nat.le_refl _) hf1 hf2
  · intro s f hb hf
    have hcov : Covers (List.range' 1 s.counter) (resetStates s.heap s.all_objects) := by
      intro j hj
      rw [resetStates_isSome] at hj
      rw [mem_range_one]
      exact hb j hj
    have hbound : ucOn (List.range' 1 s.counter) (resetStates s.heap s.all_objects)
        ≤ s.counter := by
      have := ucOn_le_length (List.range' 1 s.counter) (resetStates s.heap s.all_objects)
      simp at this
      exact this
    show markPhaseFuel s f = markPhaseFuel s (s.counter + 1)
    rw [markPhaseFuel_eq s f, markPhaseFuel_eq s (s.counter + 1),
      markListFuel_fuel_irrelevant (List.range' 1 s.counter) s.roots f (s.counter + 1)
      (resetStates s.heap s.all_objects) hcov (by omega) (by omega)]

theorem C6_witness :
    Covers [1] (Heap.set (fun _ => none) 1 ⟨"a", [1], ObjectState.unmarked⟩) ∧
    ucOn [1] (Heap.set (fun _ => none) 1 ⟨"a", [1], ObjectState.unmarked⟩) < 2 ∧
    ucOn [1] (Heap.set (fun _ => none) 1 ⟨"a", [1], ObjectState.unmarked⟩) < 3 ∧
    markFuel 2 (Heap.set (fun _ => none) 1 ⟨"a", [1], ObjectState.unmarked⟩) 1
      = markFuel 3 (Heap.set (fun _ => none) 1 ⟨"a", [1], ObjectState.unmarked⟩) 1 := by
  have hcov : Covers [1] (Heap.set (fun _ => none) 1 ⟨"a", [1], ObjectState.unmarked⟩) := by
    intro j hj
    by_cases hj1 : j = 1
    · rw [hj1]
      exact List.mem_singleton.mpr rfl
    · exfalso
      have : (Heap.set (fun _ => none) 1 ⟨"a", [1], ObjectState.unmarked⟩) j = none := by
        rw [Heap.set_apply, if_neg hj1]
      rw [this] at hj
      simp at hj
  exact ⟨hcov, by decide, by decide,
    C6_mark_terminates.1 [1] (Heap.set (fun _ => none) 1 ⟨"a", [1], ObjectState.unmarked⟩)
      1 2 3 hcov (by decide) (by decide)⟩

/-- C7: in every state reachable through the public operations,
`collected_count` equals the sum of the `collected_objects` entries over
`collection_history`, the length of `collection_history` equals the number
of completed `collect()` calls, and both quantities are non-decreasing
across every operation. -/
theorem C7_accounting :
    (∀ ops : List Op,
      (runOps init ops).collected_count =
        ((runOps init ops).collection_history.map CycleStats.collected_objects).sum ∧
      (runOps init ops).collection_history.length =
        ops.countP (fun op => decide (op = Op.collect))) ∧
    (∀ (s : GCState) (op : Op),
      s.collected_count ≤ (applyOp s op).collected_count ∧
      s.collection_history.length ≤ (applyOp s op).collection_history.length) := by
  constructor
  · have hgen : ∀ (ops : List Op) (s : GCState),
        (s.collected_count = (s.collection_history.map CycleStats.collected_objects).sum →
          (runOps s ops).collected_count =
            ((runOps s ops).collection_history.map CycleStats.collected_objects).sum) ∧
        (runOps s ops).collection_history.length =
          s.collection_history.length + ops.countP (fun op => decide (op = Op.collect)) := by
      intro ops
      induction ops with
      | nil =>
        intro s
        exact ⟨fun h => h, by rw [runOps]; simp⟩
      | cons op rest ih =>
        intro s
        constructor
        · intro h
          rw [runOps]
          exact (ih (applyOp s op)).1 (applyOp_count_sum s op h)
        · rw [runOps, (ih (applyOp s op)).2, applyOp_history_length, List.countP_cons]
          by_cases hco : op = Op.collect
          · simp [hco]
            omega
          · simp [hco]
    intro ops
    refine ⟨(hgen ops init).1 rfl, ?_⟩
    have h2 := (hgen ops init).2
    rw [h2]
    show ([] : List CycleStats).length + _ = _
    simp
  · exact applyOp_count_mono

/-- C8: `add_reference` is idempotent and duplicate-free — adding a target
already present leaves the heap (hence the reference list, its length and
its order) unchanged, reference lists never contain the same target twice in
any reachable state, and `remove_reference` of an absent target is a no-op,
not an error. -/
theorem C8_reference_list_discipline :
    (∀ (h : Heap) (a b : Nat), b ∈ refsOf h a → add_reference h a b = h) ∧
    (∀ (h : Heap) (a b : Nat), b ∉ refsOf h a → remove_reference h a b = h) ∧
    (∀ (ops : List Op) (i : Nat), (refsOf (runOps init ops).heap i).Nodup) := by
  refine ⟨?_, ?_, ?_⟩
  · intro h a b hb
    funext j
    unfold add_reference
    by_cases hj : j = a
    · subst hj
      cases ho : h j with
      | none => simp [ho]
      | some o =>
        have hbo : b ∈ o.references := by
          unfold refsOf at hb
          rw [ho] at hb
          exact hb
        simp [ho, hbo]
    · simp [hj]
  · intro h a b hb
    funext j
    unfold remove_reference
    by_cases hj : j = a
    · subst hj
      cases ho : h j with
      | none => simp [ho]
      | some o =>
        have hbo : b ∉ o.references := by
          unfold refsOf at hb
          rw [ho] at hb
          exact hb
        simp [ho, hbo]
    · simp [hj]
  · intro ops i
    exact (inv_runOps ops init inv_init).refs_nodup i

theorem C8_witness :
    2 ∈ refsOf (Heap.set (fun _ => none) 1 ⟨"a", [2], ObjectState.unmarked⟩) 1 ∧
    add_reference (Heap.set (fun _ => none) 1 ⟨"a", [2], ObjectState.unmarked⟩) 1 2
      = (Heap.set (fun _ => none) 1 ⟨"a", [2], ObjectState.unmarked⟩) ∧
    (3 ∉ refsOf (Heap.set (fun _ => none) 1 ⟨"a", [2], ObjectState.unmarked⟩) 1) ∧
    remove_reference (Heap.set (fun _ => none) 1 ⟨"a", [2], ObjectState.unmarked⟩) 1 3
      = (Heap.set (fun _ => none) 1 ⟨"a", [2], ObjectState.unmarked⟩) :=
  ⟨by decide,
   C8_reference_list_discipline.1 _ 1 2 (by decide),
   by decide,
   C8_reference_list_discipline.2.1 _ 1 3 (by decide)⟩

/-- C9: object identities are strictly increasing in allocation order and
never reused: the ids assigned by any sequence of `ManagedObject`
constructions threading the class counter are pairwise strictly increasing
(hence duplicate-free), and likewise the ids handed out by the `allocate`
calls of any operation sequence on any collector state. -/
theorem C9_monotonic_identity :
    (∀ (names : List String) (c : Nat),
      List.Pairwise (fun a b => a < b) (creationIds c names) ∧
      (creationIds c names).Nodup) ∧
    (∀ (ops : List Op) (s : GCState),
      List.Pairwise (fun a b => a < b) (allocIds s ops) ∧
      (allocIds s ops).Nodup) := by
  constructor
  · intro names c
    have hp := creationIds_pairwise names c
    exact ⟨hp, hp.imp (fun hab => Nat.ne_of_lt hab)⟩
  · intro ops s
    have hp := allocIds_pairwise ops s
    exact ⟨hp, hp.imp (fun hab => Nat.ne_of_lt hab)⟩

/-- C10: `collect()` never modifies the root set — the roots after a cycle
(and after each of its two phases) are exactly the roots before it, and the
sweep phase removes objects only from `all_objects`. -/
theorem C10_collect_preserves_roots (s : GCState) :
    (collect s).1.roots = s.roots ∧
    (mark_phase s).1.roots = s.roots ∧
    (sweep_phase s).1.roots = s.roots ∧
    (sweep_phase s).1.all_objects = s.all_objects.filter
      (fun i => ¬ (stateOf s.heap i = some ObjectState.unmarked)) :=
  ⟨rfl, rfl, rfl, rfl⟩

end MarkSweep
